import Mathlib

/-!
Verification of the open-addressing hash map of `src/hmap.h` (the `Hmap`
container with bounded linear probing) against its natural-language
specification.

Shallow embedding conventions:
* C `long` counters (`size`, `capacity`, `max_dist`) are modelled as `Nat`;
  they are non-negative in every reachable state and far from overflow.
* The `double load_factor` is modelled as an exact rational `ℚ`; for the
  load factors appearing in the spec (3/4) the C double arithmetic
  (`capacity / load_factor + 1`, `size + 1 > capacity * load_factor`)
  is exact, so rational arithmetic coincides with the source semantics.
* A `char *key` is `Option String` (`none` is the NULL pointer of an empty
  slot); `strcmp(a,b) == 0` is string equality.
* A `void *data` pointer is `Option V` (`none` models NULL).  The
  `data_copy` callback (default `memcpy`) is modelled by its effect on the
  stored contents: an `Option (V → V)` which maps the source contents to
  the contents written into the freshly malloc'd block; `memcpy` is
  `some id`.  `data_free` is modelled by a presence flag; invoking it has
  no content-level effect, and the embedded operations never consult it,
  mirroring that `hmap_remove`/`hmap_insert` never call it.
* `uint64_t` hashing is `Nat` with explicit reduction `% 2 ^ 64` at each
  multiplication, exactly as overflow occurs in the source.
* The probe loops of the C code terminate by reaching an empty or matching
  slot; the embedding gives them `capacity` (resp. `max_dist + 1`) fuel.
  A linear probe visits every slot within `capacity` steps, so fuel
  exhaustion (`none`) corresponds exactly to the non-terminating C loop on
  a full array with no match, and `max_dist + 1` is the loop bound written
  in the source for `hmap_find` / `hmap_remove`.
-/

set_option autoImplicit false

namespace Cds

/-- 64-bit modulus for `uint64_t` arithmetic. -/
def U64 : Nat := 2 ^ 64

/-- `strhash_fnv1a` from `src/hash.h`: FNV-1a over the bytes of the string
(`hash ^= c; hash *= 0x00000100000001b3;` in `uint64_t` arithmetic). -/
def strhash_fnv1a (s : String) : Nat :=
  s.data.foldl (fun h c => ((h ^^^ c.toNat) * 0x00000100000001b3) % U64) 0xcbf29ce484222325

/-- `struct HmapItem`: one slot of the open-addressing array.  `key = none`
models the NULL key pointer of an empty (calloc'd or memset) slot. -/
structure HmapItem (V : Type) where
  key : Option String
  data : Option V
  hash : Nat
deriving DecidableEq

/-- The all-zero slot produced by `calloc` / `memset`. -/
def emptyItem (V : Type) : HmapItem V := ⟨none, none, 0⟩

instance (V : Type) : Inhabited (HmapItem V) := ⟨emptyItem V⟩

/-- `struct Hmap`.  `item = none` models the NULL slot-array pointer of a
not-yet-allocated (or cleared) container. -/
structure Hmap (V : Type) where
  size : Nat
  capacity : Nat
  data_size : Nat
  max_dist : Nat
  load_factor : ℚ
  key_hash : String → Nat
  data_copy : Option (V → V)
  data_free : Bool
  item : Option (List (HmapItem V))

/-- The C expression `(long)(capacity / load_factor + 1)`: for a positive
double this truncation is the floor.  Computed on the reduced
numerator/denominator representation of the rational load factor, which
is exactly `⌊c / lf⌋ + 1` (see `grownCapacity_eq_floor`).  Used by
`hmap_create_full` and `x__hmap_resize_items`. -/
def grownCapacity (c : Nat) (lf : ℚ) : Nat :=
  (((c : Int) * lf.den) / lf.num).toNat + 1

/-- `hmap_create_full`: an empty container; the slot array is not yet
allocated.  (The C asserts `0 < load_factor < 1` and a non-null hash
function; theorems carry these as hypotheses.) -/
def hmap_create_full (V : Type) (capacity data_size : Nat) (load_factor : ℚ)
    (key_hash : String → Nat) (data_copy : Option (V → V)) (data_free : Bool) : Hmap V :=
  { size := 0
    capacity := grownCapacity capacity load_factor
    data_size := data_size
    max_dist := 0
    load_factor := load_factor
    key_hash := key_hash
    data_copy := data_copy
    data_free := data_free
    item := none }

/-- `hmap_create`: defaults `load_factor = 0.75`, FNV-1a string hash,
`memcpy` data copy (content-level: the identity) and `free`. -/
def hmap_create (V : Type) (capacity data_size : Nat) : Hmap V :=
  hmap_create_full V capacity data_size (mkRat 3 4) strhash_fnv1a (some id) true

/-- Array access `hmap->item[i]`; out-of-range reads (never performed by
the source on reachable states) default to the empty slot. -/
def slotAt {V : Type} (arr : List (HmapItem V)) (i : Nat) : HmapItem V :=
  arr.getD i (emptyItem V)

/-- `x__hmap_create_items`: `calloc(capacity, sizeof *item)`. -/
def x__hmap_create_items {V : Type} (s : Hmap V) : Hmap V :=
  { s with item := some (List.replicate s.capacity (emptyItem V)) }

/-- The probe loop of `x__hmap_resize_items`:
`while (_item[_i].key) { _dist += 1; _i = (_i + 1) % _capacity; }`.
Returns the landing slot and its displacement. -/
def probeEmptyLoop {V : Type} (arr : List (HmapItem V)) (cap : Nat) :
    Nat → Nat → Nat → Option (Nat × Nat)
  | 0, _, _ => none
  | fuel + 1, i, dist =>
    if (slotAt arr i).key = none then some (i, dist)
    else probeEmptyLoop arr cap fuel ((i + 1) % cap) (dist + 1)

/-- One iteration of the rehash loop of `x__hmap_resize_items`: skip empty
slots, place a live item at the first empty slot of its probe sequence and
track the maximal displacement. -/
def resizeStep {V : Type} (cap : Nat) (acc : Option (List (HmapItem V) × Nat))
    (it : HmapItem V) : Option (List (HmapItem V) × Nat) :=
  match acc with
  | none => none
  | some (arr, md) =>
    match it.key with
    | none => some (arr, md)
    | some _ =>
      match probeEmptyLoop arr cap cap (it.hash % cap) 0 with
      | none => none
      | some (i, d) => some (arr.set i it, max md d)

/-- `x__hmap_resize_items`: grow to `capacity / load_factor + 1` slots,
re-place every live item by plain linear probing using its cached hash,
and recompute `max_dist` as the maximum displacement encountered. -/
def x__hmap_resize_items {V : Type} (s : Hmap V) : Option (Hmap V) :=
  match (s.item.getD []).foldl (resizeStep (grownCapacity s.capacity s.load_factor))
      (some (List.replicate (grownCapacity s.capacity s.load_factor) (emptyItem V), 0)) with
  | none => none
  | some (arr, md) =>
    some { s with item := some arr, capacity := grownCapacity s.capacity s.load_factor,
                  max_dist := md }

/-- Contents stored by `x__hmap_item_create`:
`if (data && hmap->data_copy) { malloc; data_copy(dst, data, size) } else dst = data`. -/
def applyCopyD {V : Type} (dc : Option (V → V)) (data : Option V) : Option V :=
  match data, dc with
  | some d, some f => some (f d)
  | _, _ => data

/-- `applyCopyD` with the container's configured copy callback. -/
def applyCopy {V : Type} (s : Hmap V) (data : Option V) : Option V :=
  applyCopyD s.data_copy data

/-- `x__hmap_item_create`: `strdup` the key, deep-copy the data through the
copy callback when present (and data non-null), cache the hash. -/
def x__hmap_item_create {V : Type} (s : Hmap V) (key : String) (data : Option V)
    (hash : Nat) : HmapItem V :=
  { key := some key, data := applyCopy s data, hash := hash }

/-- Result of the insert probe loop: first empty slot, or first slot whose
cached hash and key match. -/
inductive ProbeRes where
  | empty (i dist : Nat)
  | found (i dist : Nat)
deriving DecidableEq

/-- The probe loop of `hmap_insert`:
`while (item->key && (item->hash != hash || strcmp(item->key, key))) { ... }`. -/
def probeLoop {V : Type} (arr : List (HmapItem V)) (cap hash : Nat) (key : String) :
    Nat → Nat → Nat → Option ProbeRes
  | 0, _, _ => none
  | fuel + 1, i, dist =>
    if (slotAt arr i).key = none then some (.empty i dist)
    else if (slotAt arr i).hash = hash ∧ (slotAt arr i).key = some key then
      some (.found i dist)
    else probeLoop arr cap hash key fuel ((i + 1) % cap) (dist + 1)

/-- Line `if (!hmap->item) x__hmap_create_items(hmap);` of `hmap_insert`. -/
def insAlloc {V : Type} (s : Hmap V) : Hmap V :=
  if s.item.isNone then x__hmap_create_items s else s

/-- The growth trigger `hmap->size + 1 > hmap->capacity * hmap->load_factor`
(evaluated in double arithmetic in C, exactly here). -/
def growthCond {V : Type} (s : Hmap V) : Prop :=
  ((s.size : ℚ) + 1 > (s.capacity : ℚ) * s.load_factor)

/-- The growth trigger, decided by the equivalent integer inequality on
the reduced numerator/denominator representation (so that concrete runs
evaluate inside the kernel). -/
instance {V : Type} (s : Hmap V) : Decidable (growthCond s) :=
  decidable_of_iff
    ((s.capacity : Int) * s.load_factor.num < ((s.size : Int) + 1) * s.load_factor.den) (by
      unfold growthCond
      rw [gt_iff_lt]
      conv_rhs => rw [← Rat.num_div_den s.load_factor]
      rw [mul_div_assoc', div_lt_iff₀ (by exact_mod_cast s.load_factor.pos)]
      constructor
      · intro h; exact_mod_cast h
      · intro h; exact_mod_cast h)

/-- Lines 110–111 of `hmap_insert`: lazy allocation, then conditional
resize. -/
def insMid {V : Type} (s : Hmap V) : Option (Hmap V) :=
  if growthCond (insAlloc s) then x__hmap_resize_items (insAlloc s) else some (insAlloc s)

/-- Lines 112–130 of `hmap_insert`: the probe and the two outcomes.  On an
empty slot, materialize the item there, raise `max_dist` and bump `size`;
on a matching slot, optionally replace the stored data (with the caller's
pointer, not a copy) and return the previous data. -/
def x__insert_probe {V : Type} (t : Hmap V) (key : String) (data : Option V)
    (keep : Bool) : Option (Hmap V × Option V) :=
  match probeLoop (t.item.getD []) t.capacity (t.key_hash key) key t.capacity
      (t.key_hash key % t.capacity) 0 with
  | none => none
  | some (.empty i dist) =>
    some ({ t with
      item := some ((t.item.getD []).set i
        (x__hmap_item_create t key data (t.key_hash key)))
      max_dist := max t.max_dist dist
      size := t.size + 1 }, none)
  | some (.found i _) =>
    some ({ t with
      item := some (if keep then t.item.getD []
        else (t.item.getD []).set i
          { slotAt (t.item.getD []) i with data := data }) },
      (slotAt (t.item.getD []) i).data)

/-- `hmap_insert`: returns the updated container and the previous value
(`none` models the `return 0` for a fresh insertion as well as a stored
NULL, exactly as the C return value conflates them). -/
def hmap_insert {V : Type} (s : Hmap V) (key : String) (data : Option V)
    (keep : Bool) : Option (Hmap V × Option V) :=
  match insMid s with
  | none => none
  | some t => x__insert_probe t key data keep

/-- The shared scan loop of `hmap_find` and `hmap_remove`:
`for (long dist = 0; dist <= hmap->max_dist; ++dist)` looking for a slot
with `item->key && item->hash == hash && !strcmp(item->key, key)`.
Returns the matching index and the zero-based iteration at which it was
found. -/
def scanLoop {V : Type} (arr : List (HmapItem V)) (cap hash : Nat) (key : String) :
    Nat → Nat → Nat → Option (Nat × Nat)
  | 0, _, _ => none
  | fuel + 1, i, dist =>
    if (slotAt arr i).key = some key ∧ (slotAt arr i).hash = hash then some (i, dist)
    else scanLoop arr cap hash key fuel ((i + 1) % cap) (dist + 1)

/-- `hmap_find`. -/
def hmap_find {V : Type} (s : Hmap V) (key : String) : Option V :=
  if s.size = 0 then none
  else
    match scanLoop (s.item.getD []) s.capacity (s.key_hash key) key (s.max_dist + 1)
        (s.key_hash key % s.capacity) 0 with
    | none => none
    | some (i, _) => (slotAt (s.item.getD []) i).data

/-- Number of slots inspected by the `hmap_find` loop: the early-out on
`size == 0` inspects none, a hit at iteration `d` has inspected `d + 1`
slots, a miss has inspected all `max_dist + 1`. -/
def hmap_findInspected {V : Type} (s : Hmap V) (key : String) : Nat :=
  if s.size = 0 then 0
  else
    match scanLoop (s.item.getD []) s.capacity (s.key_hash key) key (s.max_dist + 1)
        (s.key_hash key % s.capacity) 0 with
    | none => s.max_dist + 1
    | some (_, d) => d + 1

/-- `hmap_remove`: on a match, `free(item->key); memset(item, 0, ..);
hmap->size -= 1;` and the stored data is returned (the free callback is
never consulted — ownership moves to the caller). -/
def hmap_remove {V : Type} (s : Hmap V) (key : String) : Hmap V × Option V :=
  if s.size = 0 then (s, none)
  else
    match scanLoop (s.item.getD []) s.capacity (s.key_hash key) key (s.max_dist + 1)
        (s.key_hash key % s.capacity) 0 with
    | none => (s, none)
    | some (i, _) =>
      ({ s with item := some ((s.item.getD []).set i (emptyItem V)), size := s.size - 1 },
       (slotAt (s.item.getD []) i).data)

/-- The struct literal `(Hmap){0}` written by `hmap_clear`: every field is
zeroed, including `capacity`, `load_factor` and the callback pointers (the
NULL `key_hash` function pointer is modelled by the constant-0 hash). -/
def hmap_zero (V : Type) : Hmap V :=
  { size := 0, capacity := 0, data_size := 0, max_dist := 0, load_factor := 0
    key_hash := fun _ => 0, data_copy := none, data_free := false, item := none }

/-- `hmap_clear`: an early `return` when the slot array was never
allocated, otherwise free everything and zero the whole struct. -/
def hmap_clear {V : Type} (s : Hmap V) : Hmap V :=
  if s.item.isNone then s else hmap_zero V

/-- One iteration of the `hmap_copy` loop:
`if (item->key) hmap_insert(&copy, item->key, item->data, 0);`
(note the literal `0` for `keep`). -/
def copyStep {V : Type} (acc : Option (Hmap V)) (it : HmapItem V) : Option (Hmap V) :=
  match acc with
  | none => none
  | some c =>
    match it.key with
    | none => some c
    | some k => (hmap_insert c k it.data false).map Prod.fst

/-- `hmap_copy`: fresh container with capacity hint `size` and the same
configuration, then re-insert every live item with `keep = 0`. -/
def hmap_copy {V : Type} (s : Hmap V) : Option (Hmap V) :=
  let copy := hmap_create_full V s.size s.data_size s.load_factor s.key_hash
      s.data_copy s.data_free
  if s.size = 0 then some copy
  else (s.item.getD []).foldl copyStep (some copy)

/-- Modelled from the spec: the variant of the `hmap_copy` loop the spec
describes, re-inserting every live entry "using `keep_existing = true`
semantics".  It differs from `copyStep` only in the `keep` flag. -/
def copyStepKeep {V : Type} (acc : Option (Hmap V)) (it : HmapItem V) : Option (Hmap V) :=
  match acc with
  | none => none
  | some c =>
    match it.key with
    | none => some c
    | some k => (hmap_insert c k it.data true).map Prod.fst

/-- Modelled from the spec: `hmap_copy` as the spec states it, with
`keep_existing = true` on the re-insertions. -/
def hmap_copyKeepTrue {V : Type} (s : Hmap V) : Option (Hmap V) :=
  let copy := hmap_create_full V s.size s.data_size s.load_factor s.key_hash
      s.data_copy s.data_free
  if s.size = 0 then some copy
  else (s.item.getD []).foldl copyStepKeep (some copy)

/-- An operation on a container: the two mutators of the public API whose
interleavings the claims quantify over (resize happens inside insert). -/
inductive Op (V : Type) where
  | ins (key : String) (data : Option V) (keep : Bool)
  | del (key : String)

/-- Apply one operation, discarding the returned previous value. -/
def hmap_step {V : Type} (s : Hmap V) : Op V → Option (Hmap V)
  | .ins k v keep => (hmap_insert s k v keep).map Prod.fst
  | .del k => some (hmap_remove s k).fst

/-- Run a sequence of operations. -/
def hmap_run {V : Type} (s : Hmap V) : List (Op V) → Option (Hmap V)
  | [] => some s
  | op :: ops =>
    match hmap_step s op with
    | none => none
    | some t => hmap_run t ops

/-- A pure-insertion run, as quantified over by the round-trip and growth
claims: each triple is `(key, data, keep)`. -/
def insRun {V : Type} (s : Hmap V) (l : List (String × Option V × Bool)) : Option (Hmap V) :=
  hmap_run s (l.map fun t => Op.ins t.1 t.2.1 t.2.2)

/-- Keys of the live slots of an array, in slot order. -/
def liveKeys {V : Type} (arr : List (HmapItem V)) : List String :=
  arr.filterMap (·.key)

/-- Live slots of an array, in slot order. -/
def liveList {V : Type} (arr : List (HmapItem V)) : List (HmapItem V) :=
  arr.filter (fun it => it.key.isSome)

/-- Number of live slots holding the given key. -/
def countKey {V : Type} (s : Hmap V) (k : String) : Nat :=
  (liveKeys (s.item.getD [])).count k

/-- The key is held by some live slot. -/
def keyLive {V : Type} (s : Hmap V) (k : String) : Prop :=
  k ∈ liveKeys (s.item.getD [])

instance {V : Type} (s : Hmap V) (k : String) : Decidable (keyLive s k) :=
  inferInstanceAs (Decidable (k ∈ liveKeys (s.item.getD [])))

/-- Data of the first live slot holding the given key (`none` when the key
is absent; `some d` when present with stored data `d`). -/
def dataOfKey {V : Type} (s : Hmap V) (k : String) : Option (Option V) :=
  ((s.item.getD []).find? (fun it => it.key == some k)).map (·.data)

/-- Forward wrapping distance from slot `a` to slot `b` in an array of
`cap` slots: the number of `+1 (mod cap)` steps from `a` to `b`. -/
def wdist (cap a b : Nat) : Nat := (b + cap - a) % cap

/-! ### Arithmetic lemmas: wrapped distances and the growth formula -/

theorem wdist_lt {cap : Nat} (a b : Nat) (h : 0 < cap) : wdist cap a b < cap :=
  Nat.mod_lt _ h

theorem wdist_add {cap a : Nat} (ha : a < cap) (d : Nat) :
    wdist cap a ((a + d) % cap) = d % cap := by
  unfold wdist
  have h2 : (a + d) % cap + cap - a = (a + d) % cap + (cap - a) := by omega
  rw [h2, Nat.mod_add_mod]
  have h3 : a + d + (cap - a) = d + cap := by omega
  rw [h3, Nat.add_mod_right]

theorem add_wdist {cap a b : Nat} (ha : a < cap) (hb : b < cap) :
    (a + wdist cap a b) % cap = b := by
  unfold wdist
  rw [Nat.add_mod_mod]
  have h1 : a + (b + cap - a) = b + cap := by omega
  rw [h1, Nat.add_mod_right, Nat.mod_eq_of_lt hb]

theorem probe_index_inj {cap a u d : Nat} (ha : a < cap) (hu : u < cap) (hd : d < cap)
    (h : (a + u) % cap = (a + d) % cap) : u = d := by
  have h1 := wdist_add ha u
  have h2 := wdist_add ha d
  rw [h] at h1
  rw [h1] at h2
  rw [Nat.mod_eq_of_lt hu, Nat.mod_eq_of_lt hd] at h2
  omega

theorem grownCapacity_pos (c : Nat) (lf : ℚ) : 0 < grownCapacity c lf := by
  unfold grownCapacity; omega

theorem lt_grownCapacity {lf : ℚ} (c : Nat) (h0 : 0 < lf) (h1 : lf ≤ 1) :
    c < grownCapacity c lf := by
  have hnum : 0 < lf.num := Rat.num_pos.mpr h0
  have hden : (0 : ℤ) < lf.den := by exact_mod_cast lf.pos
  have hnd : lf.num ≤ (lf.den : ℤ) := by
    by_contra hcon
    push_neg at hcon
    have : (1 : ℚ) < lf := by
      rw [← Rat.num_div_den lf, lt_div_iff₀ (by exact_mod_cast lf.pos), one_mul]
      exact_mod_cast hcon
    exact absurd h1 (not_le.mpr this)
  have hq : (c : ℤ) ≤ (c : ℤ) * lf.den / lf.num := by
    rw [Int.le_ediv_iff_mul_le hnum]
    have : (c : ℤ) * lf.num ≤ (c : ℤ) * lf.den :=
      mul_le_mul_of_nonneg_left hnd (by positivity)
    exact this
  unfold grownCapacity
  have hge : (0 : ℤ) ≤ (c : ℤ) * lf.den / lf.num :=
    Int.ediv_nonneg (by positivity) (le_of_lt hnum)
  have := (Int.le_toNat hge).mpr hq
  omega

theorem lt_mul_grownCapacity {lf : ℚ} (c : Nat) (h0 : 0 < lf) :
    (c : ℚ) < (grownCapacity c lf : ℚ) * lf := by
  have hnum : 0 < lf.num := Rat.num_pos.mpr h0
  have hdenz : (0 : ℤ) < lf.den := by exact_mod_cast lf.pos
  set q : ℤ := (c : ℤ) * lf.den / lf.num with hqdef
  have hqnn : (0 : ℤ) ≤ q := Int.ediv_nonneg (by positivity) (le_of_lt hnum)
  have hkey : (c : ℤ) * lf.den < (q + 1) * lf.num := by
    have hmod := Int.emod_lt_of_pos ((c : ℤ) * lf.den) hnum
    have hdm := Int.ediv_add_emod ((c : ℤ) * lf.den) lf.num
    nlinarith [hdm, hmod]
  have hcap : (grownCapacity c lf : ℤ) = q + 1 := by
    unfold grownCapacity
    rw [← hqdef]
    push_cast [Int.toNat_of_nonneg hqnn]
    ring
  have hcapQ : (grownCapacity c lf : ℚ) = ((q + 1 : ℤ) : ℚ) := by
    exact_mod_cast congrArg (fun z : ℤ => (z : ℚ)) hcap
  rw [hcapQ]
  conv_rhs => rw [← Rat.num_div_den lf]
  rw [mul_div_assoc', lt_div_iff₀ (by exact_mod_cast lf.pos)]
  exact_mod_cast hkey

/-! ### Slot array lemmas -/

/-- Number of live slots of an array. -/
def liveCount {V : Type} (arr : List (HmapItem V)) : Nat := (liveList arr).length

theorem slotAt_get {V : Type} {arr : List (HmapItem V)} {i : Nat} (h : i < arr.length) :
    slotAt arr i = arr.get ⟨i, h⟩ := by
  unfold slotAt
  rw [List.getD_eq_getElem?_getD, List.getElem?_eq_getElem h]
  rfl

theorem slotAt_mem {V : Type} {arr : List (HmapItem V)} {i : Nat} (h : i < arr.length) :
    slotAt arr i ∈ arr := by
  rw [slotAt_get h]
  exact List.get_mem arr i h

theorem slotAt_of_le {V : Type} {arr : List (HmapItem V)} {i : Nat} (h : arr.length ≤ i) :
    slotAt arr i = emptyItem V := by
  unfold slotAt
  rw [List.getD_eq_getElem?_getD, List.getElem?_eq_none (by simpa using h)]
  rfl

theorem slotAt_set_self {V : Type} {arr : List (HmapItem V)} {i : Nat} (h : i < arr.length)
    (it : HmapItem V) : slotAt (arr.set i it) i = it := by
  unfold slotAt
  rw [List.getD_eq_getElem?_getD, List.getElem?_set_self (by simpa using h)]
  rfl

theorem slotAt_set_ne {V : Type} {arr : List (HmapItem V)} {i j : Nat} (h : i ≠ j)
    (it : HmapItem V) : slotAt (arr.set i it) j = slotAt arr j := by
  unfold slotAt
  rw [List.getD_eq_getElem?_getD, List.getD_eq_getElem?_getD, List.getElem?_set_ne h]

theorem arr_decomp {V : Type} {arr : List (HmapItem V)} {i : Nat} (h : i < arr.length) :
    arr = arr.take i ++ slotAt arr i :: arr.drop (i + 1) := by
  rw [slotAt_get h]
  conv_lhs => rw [← List.take_append_drop i arr]
  rw [List.drop_eq_getElem_cons h]
  rfl

theorem set_decomp {V : Type} {arr : List (HmapItem V)} {i : Nat} (h : i < arr.length)
    (it : HmapItem V) : arr.set i it = arr.take i ++ it :: arr.drop (i + 1) :=
  List.set_eq_take_cons_drop it h

/-- Filling an empty slot adds the item to the live list (up to permutation). -/
theorem liveList_fill_perm {V : Type} {arr : List (HmapItem V)} {i : Nat}
    (h : i < arr.length) (he : (slotAt arr i).key = none) {it : HmapItem V}
    (hit : it.key.isSome) : (liveList (arr.set i it)).Perm (it :: liveList arr) := by
  have hd := arr_decomp h
  have hs := set_decomp h it
  unfold liveList
  rw [hs]
  conv_rhs => rw [hd]
  rw [List.filter_append, List.filter_append, List.filter_cons, List.filter_cons, hit]
  simp only [he, Option.isSome_none, Bool.false_eq_true, if_false, if_true]
  exact List.perm_middle

/-- Clearing an occupied slot removes the item from the live list. -/
theorem liveList_clear_perm {V : Type} {arr : List (HmapItem V)} {i : Nat} {k : String}
    (h : i < arr.length) (hk : (slotAt arr i).key = some k) :
    (liveList arr).Perm (slotAt arr i :: liveList (arr.set i (emptyItem V))) := by
  have hd := arr_decomp h
  have hs := set_decomp h (emptyItem V)
  unfold liveList
  conv_lhs => rw [hd]
  rw [hs]
  rw [List.filter_append, List.filter_append, List.filter_cons, List.filter_cons, hk]
  simp only [Option.isSome_some, emptyItem, Option.isSome_none, Bool.false_eq_true,
    if_false, if_true]
  exact List.perm_middle

/-- Replacing the contents of an occupied slot while keeping its key fixed
preserves the live keys and the live count. -/
theorem liveKeys_replace {V : Type} {arr : List (HmapItem V)} {i : Nat} {it : HmapItem V}
    (h : i < arr.length) (hk : it.key = (slotAt arr i).key) (hocc : it.key.isSome) :
    liveKeys (arr.set i it) = liveKeys arr ∧ liveCount (arr.set i it) = liveCount arr := by
  have hd := arr_decomp h
  have hs := set_decomp h it
  have hocc' : (slotAt arr i).key.isSome := by rw [← hk]; exact hocc
  constructor
  · unfold liveKeys
    rw [hs]
    conv_rhs => rw [hd]
    rw [List.filterMap_append, List.filterMap_append, List.filterMap_cons, List.filterMap_cons, hk]
  · unfold liveCount liveList
    rw [hs]
    conv_rhs => rw [hd]
    rw [List.filter_append, List.filter_append, List.filter_cons, List.filter_cons, hocc, hocc']
    simp

theorem liveCount_le_length {V : Type} (arr : List (HmapItem V)) :
    liveCount arr ≤ arr.length :=
  List.length_filter_le _ arr

/-- `liveKeys` only depends on the live items. -/
theorem liveKeys_eq_filterMap_liveList {V : Type} (arr : List (HmapItem V)) :
    liveKeys arr = (liveList arr).filterMap (·.key) := by
  unfold liveKeys liveList
  induction arr with
  | nil => rfl
  | cons a l ih =>
    rw [List.filterMap_cons, List.filter_cons]
    cases hk : a.key with
    | none => simp only [hk, Option.isSome_none, Bool.false_eq_true, if_false, ih]
    | some k =>
      simp only [hk, Option.isSome_some, if_true, List.filterMap_cons, ih]

theorem liveKeys_perm_of_liveList_perm {V : Type} {arr arr' : List (HmapItem V)}
    (h : (liveList arr).Perm (liveList arr')) : (liveKeys arr).Perm (liveKeys arr') := by
  rw [liveKeys_eq_filterMap_liveList, liveKeys_eq_filterMap_liveList]
  exact h.filterMap _

theorem keyLive_iff {V : Type} {arr : List (HmapItem V)} {k : String} :
    k ∈ liveKeys arr ↔ ∃ i, i < arr.length ∧ (slotAt arr i).key = some k := by
  unfold liveKeys
  rw [List.mem_filterMap]
  constructor
  · rintro ⟨it, hmem, hkey⟩
    obtain ⟨n, hget⟩ := List.mem_iff_get.mp hmem
    refine ⟨n.1, n.isLt, ?_⟩
    rw [slotAt_get n.isLt]
    have hfin : (⟨n.1, n.isLt⟩ : Fin arr.length) = n := by cases n; rfl
    rw [hfin, hget, hkey]
  · rintro ⟨i, hi, hkey⟩
    exact ⟨slotAt arr i, slotAt_mem hi, hkey⟩

theorem liveCount_pos_of_keyLive {V : Type} {arr : List (HmapItem V)} {k : String}
    (h : k ∈ liveKeys arr) : 0 < liveCount arr := by
  obtain ⟨it, hmem, hkey⟩ := List.mem_filterMap.mp h
  have : it ∈ liveList arr := List.mem_filter.mpr ⟨hmem, by rw [hkey]; rfl⟩
  unfold liveCount
  exact List.length_pos.mpr (List.ne_nil_of_mem this)

/-- In an array whose live keys are pairwise distinct, two occupied slots
with the same key coincide. -/
theorem nodup_liveKeys_inj {V : Type} :
    ∀ (arr : List (HmapItem V)), (liveKeys arr).Nodup →
    ∀ (i j : Nat), i < arr.length → j < arr.length → ∀ (k : String),
      (slotAt arr i).key = some k → (slotAt arr j).key = some k → i = j := by
  intro arr
  induction arr with
  | nil => intro _ i j hi _ _ _ _; simp at hi
  | cons a l ih =>
    intro hnd i j hi hj k hki hkj
    have hslot : ∀ m, slotAt (a :: l) (m + 1) = slotAt l m := by
      intro m; unfold slotAt; rfl
    have hslot0 : slotAt (a :: l) 0 = a := by unfold slotAt; rfl
    have hmemtail : ∀ (m : Nat), m < l.length → (slotAt l m).key = some k →
        k ∈ l.filterMap (·.key) :=
      fun m hm hkm => List.mem_filterMap.mpr ⟨slotAt l m, slotAt_mem hm, hkm⟩
    have hndl : (l.filterMap (·.key)).Nodup ∧ (∀ hk : a.key = some k, k ∉ l.filterMap (·.key)) := by
      unfold liveKeys at hnd
      rw [List.filterMap_cons] at hnd
      cases hak : a.key with
      | none =>
        rw [hak] at hnd
        exact ⟨hnd, fun hk => absurd hk (by simp)⟩
      | some k' =>
        rw [hak] at hnd
        have h2 := List.nodup_cons.mp hnd
        refine ⟨h2.2, ?_⟩
        intro hk
        rw [Option.some_inj] at hk
        rw [← hk]
        exact h2.1
    match i, j with
    | 0, 0 => rfl
    | 0, j + 1 =>
      exfalso
      rw [hslot0] at hki
      rw [hslot j] at hkj
      exact hndl.2 hki (hmemtail j (by simpa using hj) hkj)
    | i + 1, 0 =>
      exfalso
      rw [hslot0] at hkj
      rw [hslot i] at hki
      exact hndl.2 hkj (hmemtail i (by simpa using hi) hki)
    | i + 1, j + 1 =>
      rw [hslot i] at hki
      rw [hslot j] at hkj
      have := ih hndl.1 i j (by simpa using hi) (by simpa using hj) k hki hkj
      omega

/-! ### Characterization of the probe and scan loops -/

theorem scanLoop_some {V : Type} {arr : List (HmapItem V)} {cap hash : Nat} {key : String} :
    ∀ fuel i dist j d, 0 < cap → i < cap →
    scanLoop arr cap hash key fuel i dist = some (j, d) →
    ∃ t, t < fuel ∧ d = dist + t ∧ j = (i + t) % cap ∧
      ((slotAt arr j).key = some key ∧ (slotAt arr j).hash = hash) ∧
      ∀ u, u < t → ¬((slotAt arr ((i + u) % cap)).key = some key ∧
        (slotAt arr ((i + u) % cap)).hash = hash) := by
  intro fuel
  induction fuel with
  | zero => intro i dist j d _ _ h; exact absurd h (by simp [scanLoop])
  | succ fuel ih =>
    intro i dist j d hcap hi h
    rw [scanLoop] at h
    by_cases hm : (slotAt arr i).key = some key ∧ (slotAt arr i).hash = hash
    · rw [if_pos hm] at h
      simp only [Option.some_inj, Prod.mk.injEq] at h
      obtain ⟨rfl, rfl⟩ := h
      exact ⟨0, Nat.succ_pos _, by omega, by rw [Nat.add_zero, Nat.mod_eq_of_lt hi],
        hm, by omega⟩
    · rw [if_neg hm] at h
      obtain ⟨t, ht, hd, hj, hmatch, hprev⟩ :=
        ih ((i + 1) % cap) (dist + 1) j d hcap (Nat.mod_lt _ hcap) h
      refine ⟨t + 1, by omega, by omega, ?_, hmatch, ?_⟩
      · rw [hj, Nat.mod_add_mod]
        congr 1
        omega
      · intro u hu
        cases u with
        | zero =>
          intro hcon
          apply hm
          simpa [Nat.mod_eq_of_lt hi] using hcon
        | succ v =>
          have h2 := hprev v (by omega)
          have he : ((i + 1) % cap + v) % cap = (i + (v + 1)) % cap := by
            rw [Nat.mod_add_mod]; congr 1; omega
          rw [he] at h2
          exact h2

theorem scanLoop_isSome_of_match {V : Type} {arr : List (HmapItem V)} {cap hash : Nat}
    {key : String} :
    ∀ t fuel i dist, t < fuel → 0 < cap → i < cap →
    ((slotAt arr ((i + t) % cap)).key = some key ∧ (slotAt arr ((i + t) % cap)).hash = hash) →
    (scanLoop arr cap hash key fuel i dist).isSome := by
  intro t
  induction t with
  | zero =>
    intro fuel i dist hf hcap hi hm
    cases fuel with
    | zero => omega
    | succ fuel =>
      rw [scanLoop]
      rw [Nat.add_zero, Nat.mod_eq_of_lt hi] at hm
      rw [if_pos hm]
      rfl
  | succ t ih =>
    intro fuel i dist hf hcap hi hm
    cases fuel with
    | zero => omega
    | succ fuel =>
      rw [scanLoop]
      by_cases h0 : (slotAt arr i).key = some key ∧ (slotAt arr i).hash = hash
      · rw [if_pos h0]; rfl
      · rw [if_neg h0]
        apply ih fuel ((i + 1) % cap) (dist + 1) (by omega) hcap (Nat.mod_lt _ hcap)
        have he : ((i + 1) % cap + t) % cap = (i + (t + 1)) % cap := by
          rw [Nat.mod_add_mod]; congr 1; omega
        rw [he]
        exact hm

theorem probeLoop_some_empty {V : Type} {arr : List (HmapItem V)} {cap hash : Nat}
    {key : String} :
    ∀ fuel i dist j d, 0 < cap → i < cap →
    probeLoop arr cap hash key fuel i dist = some (.empty j d) →
    ∃ t, t < fuel ∧ d = dist + t ∧ j = (i + t) % cap ∧ (slotAt arr j).key = none ∧
      ∀ u, u < t → (slotAt arr ((i + u) % cap)).key.isSome ∧
        ¬((slotAt arr ((i + u) % cap)).key = some key ∧
          (slotAt arr ((i + u) % cap)).hash = hash) := by
  intro fuel
  induction fuel with
  | zero => intro i dist j d _ _ h; exact absurd h (by simp [probeLoop])
  | succ fuel ih =>
    intro i dist j d hcap hi h
    rw [probeLoop] at h
    by_cases he : (slotAt arr i).key = none
    · rw [if_pos he] at h
      simp only [Option.some_inj, ProbeRes.empty.injEq] at h
      obtain ⟨rfl, rfl⟩ := h
      exact ⟨0, Nat.succ_pos _, by omega, by rw [Nat.add_zero, Nat.mod_eq_of_lt hi],
        he, by omega⟩
    · rw [if_neg he] at h
      by_cases hc : (slotAt arr i).hash = hash ∧ (slotAt arr i).key = some key
      · rw [if_pos hc] at h
        exact absurd h (by simp)
      · rw [if_neg hc] at h
        obtain ⟨t, ht, hd, hj, hempty, hprev⟩ :=
          ih ((i + 1) % cap) (dist + 1) j d hcap (Nat.mod_lt _ hcap) h
        refine ⟨t + 1, by omega, by omega, ?_, hempty, ?_⟩
        · rw [hj, Nat.mod_add_mod]
          congr 1
          omega
        · intro u hu
          cases u with
          | zero =>
            rw [Nat.add_zero, Nat.mod_eq_of_lt hi]
            exact ⟨Option.isSome_iff_ne_none.mpr he, fun hcon => hc ⟨hcon.2, hcon.1⟩⟩
          | succ v =>
            have h2 := hprev v (by omega)
            have heq : ((i + 1) % cap + v) % cap = (i + (v + 1)) % cap := by
              rw [Nat.mod_add_mod]; congr 1; omega
            rw [heq] at h2
            exact h2

theorem probeLoop_some_found {V : Type} {arr : List (HmapItem V)} {cap hash : Nat}
    {key : String} :
    ∀ fuel i dist j d, 0 < cap → i < cap →
    probeLoop arr cap hash key fuel i dist = some (.found j d) →
    ∃ t, t < fuel ∧ d = dist + t ∧ j = (i + t) % cap ∧
      ((slotAt arr j).key = some key ∧ (slotAt arr j).hash = hash) ∧
      ∀ u, u < t → (slotAt arr ((i + u) % cap)).key.isSome ∧
        ¬((slotAt arr ((i + u) % cap)).key = some key ∧
          (slotAt arr ((i + u) % cap)).hash = hash) := by
  intro fuel
  induction fuel with
  | zero => intro i dist j d _ _ h; exact absurd h (by simp [probeLoop])
  | succ fuel ih =>
    intro i dist j d hcap hi h
    rw [probeLoop] at h
    by_cases he : (slotAt arr i).key = none
    · rw [if_pos he] at h
      exact absurd h (by simp)
    · rw [if_neg he] at h
      by_cases hc : (slotAt arr i).hash = hash ∧ (slotAt arr i).key = some key
      · rw [if_pos hc] at h
        simp only [Option.some_inj, ProbeRes.found.injEq] at h
        obtain ⟨rfl, rfl⟩ := h
        exact ⟨0, Nat.succ_pos _, by omega, by rw [Nat.add_zero, Nat.mod_eq_of_lt hi],
          ⟨hc.2, hc.1⟩, by omega⟩
      · rw [if_neg hc] at h
        obtain ⟨t, ht, hd, hj, hmatch, hprev⟩ :=
          ih ((i + 1) % cap) (dist + 1) j d hcap (Nat.mod_lt _ hcap) h
        refine ⟨t + 1, by omega, by omega, ?_, hmatch, ?_⟩
        · rw [hj, Nat.mod_add_mod]
          congr 1
          omega
        · intro u hu
          cases u with
          | zero =>
            rw [Nat.add_zero, Nat.mod_eq_of_lt hi]
            exact ⟨Option.isSome_iff_ne_none.mpr he, fun hcon => hc ⟨hcon.2, hcon.1⟩⟩
          | succ v =>
            have h2 := hprev v (by omega)
            have heq : ((i + 1) % cap + v) % cap = (i + (v + 1)) % cap := by
              rw [Nat.mod_add_mod]; congr 1; omega
            rw [heq] at h2
            exact h2

theorem probeEmptyLoop_some {V : Type} {arr : List (HmapItem V)} {cap : Nat} :
    ∀ fuel i dist j d, 0 < cap → i < cap →
    probeEmptyLoop arr cap fuel i dist = some (j, d) →
    ∃ t, t < fuel ∧ d = dist + t ∧ j = (i + t) % cap ∧ (slotAt arr j).key = none ∧
      ∀ u, u < t → (slotAt arr ((i + u) % cap)).key.isSome := by
  intro fuel
  induction fuel with
  | zero => intro i dist j d _ _ h; exact absurd h (by simp [probeEmptyLoop])
  | succ fuel ih =>
    intro i dist j d hcap hi h
    rw [probeEmptyLoop] at h
    by_cases he : (slotAt arr i).key = none
    · rw [if_pos he] at h
      simp only [Option.some_inj, Prod.mk.injEq] at h
      obtain ⟨rfl, rfl⟩ := h
      exact ⟨0, Nat.succ_pos _, by omega, by rw [Nat.add_zero, Nat.mod_eq_of_lt hi],
        he, by omega⟩
    · rw [if_neg he] at h
      obtain ⟨t, ht, hd, hj, hempty, hprev⟩ :=
        ih ((i + 1) % cap) (dist + 1) j d hcap (Nat.mod_lt _ hcap) h
      refine ⟨t + 1, by omega, by omega, ?_, hempty, ?_⟩
      · rw [hj, Nat.mod_add_mod]
        congr 1
        omega
      · intro u hu
        cases u with
        | zero =>
          rw [Nat.add_zero, Nat.mod_eq_of_lt hi]
          exact Option.isSome_iff_ne_none.mpr he
        | succ v =>
          have h2 := hprev v (by omega)
          have heq : ((i + 1) % cap + v) % cap = (i + (v + 1)) % cap := by
            rw [Nat.mod_add_mod]; congr 1; omega
          rw [heq] at h2
          exact h2

/-! ### Well-formedness invariants -/

/-- Invariant of every reachable container state (any mix of inserts and
removes from a validly created container). -/
structure WF {V : Type} (s : Hmap V) : Prop where
  lf_pos : 0 < s.load_factor
  lf_lt : s.load_factor < 1
  cap_pos : 0 < s.capacity
  md_lt : s.max_dist < s.capacity
  size_le : (s.size : ℚ) ≤ (s.capacity : ℚ) * s.load_factor
  size_none : s.item = none → s.size = 0
  len_eq : ∀ arr, s.item = some arr → arr.length = s.capacity
  count_eq : ∀ arr, s.item = some arr → liveCount arr = s.size
  hash_ok : ∀ arr, s.item = some arr → ∀ i, i < s.capacity → ∀ k,
    (slotAt arr i).key = some k → (slotAt arr i).hash = s.key_hash k
  disp_le : ∀ arr, s.item = some arr → ∀ i, i < s.capacity →
    (slotAt arr i).key.isSome →
    wdist s.capacity ((slotAt arr i).hash % s.capacity) i ≤ s.max_dist

/-- Additional invariant of insert-only histories: every live entry's probe
path (the slots strictly between its ideal slot and its actual slot) is
fully occupied, and live keys are pairwise distinct.  Removals break the
first property (tombstone-free deletion punches holes into probe paths),
which is exactly what the duplicate-key counterexample exploits. -/
structure WFI {V : Type} (s : Hmap V) extends WF s : Prop where
  path_ok : ∀ arr, s.item = some arr → ∀ i, i < s.capacity →
    (slotAt arr i).key.isSome →
    ∀ u, u < wdist s.capacity ((slotAt arr i).hash % s.capacity) i →
      (slotAt arr (((slotAt arr i).hash % s.capacity + u) % s.capacity)).key.isSome
  nodup : ∀ arr, s.item = some arr → (liveKeys arr).Nodup

/-! ### The resize (rehash) specification -/

theorem foldl_resizeStep_none {V : Type} (cap : Nat) :
    ∀ (l : List (HmapItem V)), List.foldl (resizeStep cap) none l = none := by
  intro l
  induction l with
  | nil => rfl
  | cons a l ih => rw [List.foldl_cons]; exact ih

theorem resizeStep_dead {V : Type} (cap md : Nat) (arr : List (HmapItem V))
    {it : HmapItem V} (hk : it.key = none) :
    resizeStep cap (some (arr, md)) it = some (arr, md) := by
  unfold resizeStep
  rw [hk]

theorem resizeStep_live {V : Type} (cap md : Nat) (arr : List (HmapItem V))
    {it : HmapItem V} {k : String} (hk : it.key = some k) :
    resizeStep cap (some (arr, md)) it =
      match probeEmptyLoop arr cap cap (it.hash % cap) 0 with
      | none => none
      | some (i, d) => some (arr.set i it, max md d) := by
  unfold resizeStep
  rw [hk]

theorem slotAt_replicate {V : Type} (n i : Nat) :
    slotAt (List.replicate n (emptyItem V)) i = emptyItem V := by
  unfold slotAt
  rw [List.getD_eq_getElem?_getD]
  by_cases h : i < n
  · rw [List.getElem?_replicate, if_pos h]
    rfl
  · rw [List.getElem?_eq_none (by simpa using h)]
    rfl

theorem liveList_replicate_empty {V : Type} (n : Nat) :
    liveList (List.replicate n (emptyItem V)) = [] := by
  unfold liveList
  induction n with
  | zero => rfl
  | succ n ih =>
    rw [List.replicate_succ, List.filter_cons]
    simp only [emptyItem, Option.isSome_none, Bool.false_eq_true, if_false]
    exact ih

theorem occupied_mono_set {V : Type} {arr : List (HmapItem V)} {i : Nat} {it : HmapItem V}
    (hit : it.key.isSome) {j : Nat} (hj : (slotAt arr j).key.isSome) :
    (slotAt (arr.set i it) j).key.isSome := by
  by_cases hij : i = j
  · subst hij
    by_cases hlen : i < arr.length
    · rw [slotAt_set_self hlen]; exact hit
    · rw [List.set_eq_of_length_le (by omega)]
      exact hj
  · rw [slotAt_set_ne hij]
    exact hj

/-- Accumulator invariant for the rehash loop of `x__hmap_resize_items`. -/
structure RAcc {V : Type} (cap : Nat) (arr : List (HmapItem V)) (md : Nat) : Prop where
  len : arr.length = cap
  md_lt : md < cap
  disp : ∀ i, i < cap → (slotAt arr i).key.isSome →
    wdist cap ((slotAt arr i).hash % cap) i ≤ md
  path : ∀ i, i < cap → (slotAt arr i).key.isSome →
    ∀ u, u < wdist cap ((slotAt arr i).hash % cap) i →
      (slotAt arr (((slotAt arr i).hash % cap + u) % cap)).key.isSome

theorem resize_fold_spec {V : Type} {cap : Nat} (hcap : 0 < cap) :
    ∀ (rest arr0 : List (HmapItem V)) (md0 : Nat) (res : List (HmapItem V) × Nat),
    List.foldl (resizeStep cap) (some (arr0, md0)) rest = some res →
    RAcc cap arr0 md0 →
    RAcc cap res.1 res.2 ∧ md0 ≤ res.2 ∧
      (liveList res.1).Perm (liveList arr0 ++ liveList rest) := by
  intro rest
  induction rest with
  | nil =>
    intro arr0 md0 res h hacc
    rw [List.foldl_nil, Option.some_inj] at h
    subst h
    exact ⟨hacc, le_refl _, by simp [liveList]⟩
  | cons it rest ih =>
    intro arr0 md0 res h hacc
    rw [List.foldl_cons] at h
    cases hk : it.key with
    | none =>
      rw [resizeStep_dead cap md0 arr0 hk] at h
      obtain ⟨hr, hmd, hperm⟩ := ih arr0 md0 res h hacc
      refine ⟨hr, hmd, hperm.trans ?_⟩
      unfold liveList
      rw [List.filter_cons]
      simp only [hk, Option.isSome_none, Bool.false_eq_true, if_false]
      exact List.Perm.refl _
    | some k =>
      rw [resizeStep_live cap md0 arr0 hk] at h
      cases hp : probeEmptyLoop arr0 cap cap (it.hash % cap) 0 with
      | none =>
        rw [hp] at h
        rw [foldl_resizeStep_none] at h
        cases h
      | some pr =>
        rw [hp] at h
        obtain ⟨i, dd⟩ := pr
        have h2 : List.foldl (resizeStep cap) (some (arr0.set i it, max md0 dd)) rest
            = some res := h
        clear h
        have hocc_it : it.key.isSome := by rw [hk]; rfl
        have hmd0_lt := hacc.md_lt
        have hideal : it.hash % cap < cap := Nat.mod_lt _ hcap
        obtain ⟨t, htf, hdd, hieq, hempty, hprev⟩ :=
          probeEmptyLoop_some cap (it.hash % cap) 0 i dd hcap hideal hp
        have hi_lt : i < cap := by rw [hieq]; exact Nat.mod_lt _ hcap
        have hi_len : i < arr0.length := by rw [hacc.len]; exact hi_lt
        have hwd : wdist cap (it.hash % cap) i = t := by
          rw [hieq, wdist_add hideal, Nat.mod_eq_of_lt (by omega)]
        have hacc' : RAcc cap (arr0.set i it) (max md0 dd) := by
          refine ⟨by rw [List.length_set]; exact hacc.len, by omega, ?_, ?_⟩
          · intro j hj hjocc
            by_cases hij : i = j
            · subst hij
              rw [slotAt_set_self hi_len] at hjocc ⊢
              rw [hwd]
              omega
            · rw [slotAt_set_ne hij] at hjocc ⊢
              exact le_trans (hacc.disp j hj hjocc) (le_max_left _ _)
          · intro j hj hjocc u hu
            by_cases hij : i = j
            · subst hij
              rw [slotAt_set_self hi_len] at hjocc hu ⊢
              rw [hwd] at hu
              exact occupied_mono_set hocc_it (hprev u hu)
            · rw [slotAt_set_ne hij] at hjocc hu ⊢
              exact occupied_mono_set hocc_it (hacc.path j hj hjocc u hu)
        obtain ⟨hr, hmd, hperm⟩ := ih (arr0.set i it) (max md0 dd) res h2 hacc'
        refine ⟨hr, le_trans (le_max_left _ _) hmd, ?_⟩
        have hfill : (liveList (arr0.set i it)).Perm (it :: liveList arr0) :=
          liveList_fill_perm hi_len hempty hocc_it
        have hcons : liveList (it :: rest) = it :: liveList rest := by
          unfold liveList
          rw [List.filter_cons]
          simp only [hocc_it, if_true]
        rw [hcons]
        refine hperm.trans ?_
        refine (hfill.append_right (liveList rest)).trans ?_
        rw [List.cons_append]
        exact (List.perm_middle).symm

/-- Full specification of `x__hmap_resize_items`: configuration fields are
unchanged, capacity becomes `⌊capacity / load_factor⌋ + 1`, the live items
are exactly re-placed (as a permutation), the fresh `max_dist` bounds every
displacement in the new array, and every re-placed entry has a fully
occupied probe path. -/
theorem resize_spec {V : Type} {s t : Hmap V}
    (h : x__hmap_resize_items s = some t) :
    t.capacity = grownCapacity s.capacity s.load_factor ∧
    t.size = s.size ∧ t.load_factor = s.load_factor ∧ t.key_hash = s.key_hash ∧
    t.data_copy = s.data_copy ∧ t.data_free = s.data_free ∧ t.data_size = s.data_size ∧
    ∃ arr', t.item = some arr' ∧
      RAcc t.capacity arr' t.max_dist ∧
      (liveList arr').Perm (liveList (s.item.getD [])) := by
  unfold x__hmap_resize_items at h
  have hcap : 0 < grownCapacity s.capacity s.load_factor := grownCapacity_pos _ _
  cases hf : List.foldl (resizeStep (grownCapacity s.capacity s.load_factor))
      (some (List.replicate (grownCapacity s.capacity s.load_factor) (emptyItem V), 0))
      (s.item.getD []) with
  | none => rw [hf] at h; cases h
  | some res =>
    obtain ⟨arr, md⟩ := res
    rw [hf] at h
    have h' : ({ s with
        item := some arr
        capacity := grownCapacity s.capacity s.load_factor
        max_dist := md } : Hmap V) = t :=
      Option.some_inj.mp h
    have hacc0 : RAcc (grownCapacity s.capacity s.load_factor)
        (List.replicate (grownCapacity s.capacity s.load_factor) (emptyItem V)) 0 := by
      refine ⟨by rw [List.length_replicate], hcap, ?_, ?_⟩
      · intro i _ hocc
        rw [slotAt_replicate] at hocc
        cases hocc
      · intro i _ hocc
        rw [slotAt_replicate] at hocc
        cases hocc
    obtain ⟨hr, _, hperm⟩ := resize_fold_spec hcap (s.item.getD []) _ 0 (arr, md) hf hacc0
    subst h'
    refine ⟨rfl, rfl, rfl, rfl, rfl, rfl, rfl, arr, rfl, hr, ?_⟩
    refine hperm.trans ?_
    rw [liveList_replicate_empty, List.nil_append]

/-! ### Invariant preservation through allocation and resize -/

theorem WF.hash_of_mem {V : Type} {s : Hmap V} (hw : WF s) {arr : List (HmapItem V)}
    (hs : s.item = some arr) {it : HmapItem V} (hmem : it ∈ liveList arr) {k : String}
    (hk : it.key = some k) : it.hash = s.key_hash k := by
  have hmem' : it ∈ arr := (List.mem_filter.mp hmem).1
  obtain ⟨n, hget⟩ := List.mem_iff_get.mp hmem'
  have hlen := hw.len_eq arr hs
  have hi : n.1 < s.capacity := by rw [← hlen]; exact n.isLt
  have hslot : slotAt arr n.1 = it := by
    rw [slotAt_get n.isLt]
    have hfin : (⟨n.1, n.isLt⟩ : Fin arr.length) = n := by cases n; rfl
    rw [hfin, hget]
  have := hw.hash_ok arr hs n.1 hi k (by rw [hslot]; exact hk)
  rw [hslot] at this
  exact this

theorem WF.hash_of_mem_getD {V : Type} {s : Hmap V} (hw : WF s) {it : HmapItem V}
    (hmem : it ∈ liveList (s.item.getD [])) {k : String} (hk : it.key = some k) :
    it.hash = s.key_hash k := by
  cases hi : s.item with
  | none =>
    rw [hi] at hmem
    cases hmem
  | some arr =>
    rw [hi] at hmem
    exact hw.hash_of_mem hi hmem hk

theorem WF.count_getD {V : Type} {s : Hmap V} (hw : WF s) :
    liveCount (s.item.getD []) = s.size := by
  cases hi : s.item with
  | none =>
    rw [hw.size_none hi]
    rfl
  | some arr =>
    exact hw.count_eq arr hi

theorem WF.size_lt_cap {V : Type} {s : Hmap V} (hw : WF s) : s.size < s.capacity := by
  have h1 : (s.size : ℚ) ≤ s.capacity * s.load_factor := hw.size_le
  have h2 : (s.capacity : ℚ) * s.load_factor < s.capacity * 1 :=
    mul_lt_mul_of_pos_left hw.lf_lt (by exact_mod_cast hw.cap_pos)
  rw [mul_one] at h2
  exact_mod_cast lt_of_le_of_lt h1 h2

theorem insAlloc_of_some {V : Type} {s : Hmap V} {arr : List (HmapItem V)}
    (h : s.item = some arr) : insAlloc s = s := by
  unfold insAlloc
  rw [h]
  rfl

theorem insAlloc_of_none {V : Type} {s : Hmap V} (h : s.item = none) :
    insAlloc s = { s with item := some (List.replicate s.capacity (emptyItem V)) } := by
  unfold insAlloc x__hmap_create_items
  rw [h]
  rfl

theorem WF_insAlloc {V : Type} {s : Hmap V} (hw : WF s) :
    WF (insAlloc s) ∧ (insAlloc s).size = s.size ∧ (insAlloc s).capacity = s.capacity ∧
    (insAlloc s).load_factor = s.load_factor ∧ (insAlloc s).key_hash = s.key_hash ∧
    (insAlloc s).data_copy = s.data_copy ∧ (insAlloc s).data_free = s.data_free ∧
    (insAlloc s).data_size = s.data_size ∧ (insAlloc s).max_dist = s.max_dist ∧
    liveList ((insAlloc s).item.getD []) = liveList (s.item.getD []) ∧
    (∃ arr, (insAlloc s).item = some arr) := by
  cases hi : s.item with
  | some arr =>
    rw [insAlloc_of_some hi]
    exact ⟨hw, rfl, rfl, rfl, rfl, rfl, rfl, rfl, rfl, by rw [hi], arr, hi⟩
  | none =>
    rw [insAlloc_of_none hi]
    refine ⟨?_, rfl, rfl, rfl, rfl, rfl, rfl, rfl, rfl, ?_, _, rfl⟩
    · refine ⟨hw.lf_pos, hw.lf_lt, hw.cap_pos, hw.md_lt, hw.size_le, ?_, ?_, ?_, ?_, ?_⟩
      · intro hcon
        cases hcon
      · intro arr harr
        rw [Option.some_inj] at harr
        rw [← harr, List.length_replicate]
      · intro arr harr
        rw [Option.some_inj] at harr
        rw [← harr]
        unfold liveCount
        rw [liveList_replicate_empty]
        rw [hw.size_none hi]
        rfl
      · intro arr harr i _ k hk
        rw [Option.some_inj] at harr
        rw [← harr, slotAt_replicate] at hk
        cases hk
      · intro arr harr i _ hocc
        rw [Option.some_inj] at harr
        rw [← harr, slotAt_replicate] at hocc
        cases hocc
    · exact liveList_replicate_empty s.capacity

theorem WFI_insAlloc {V : Type} {s : Hmap V} (hw : WFI s) : WFI (insAlloc s) := by
  refine ⟨(WF_insAlloc hw.toWF).1, ?_, ?_⟩
  · cases hi : s.item with
    | some arr =>
      rw [insAlloc_of_some hi]
      exact hw.path_ok
    | none =>
      rw [insAlloc_of_none hi]
      intro arr harr i _ hocc
      rw [Option.some_inj] at harr
      rw [← harr, slotAt_replicate] at hocc
      cases hocc
  · cases hi : s.item with
    | some arr =>
      rw [insAlloc_of_some hi]
      exact hw.nodup
    | none =>
      rw [insAlloc_of_none hi]
      intro arr harr
      rw [Option.some_inj] at harr
      rw [← harr]
      have h0 : liveKeys (List.replicate s.capacity (emptyItem V)) = [] := by
        rw [liveKeys_eq_filterMap_liveList, liveList_replicate_empty]
        rfl
      rw [h0]
      exact List.nodup_nil

theorem WF_resize {V : Type} {s t : Hmap V} (hw : WF s)
    (h : x__hmap_resize_items s = some t) :
    WF t ∧ t.size = s.size ∧ s.capacity < t.capacity ∧
    t.load_factor = s.load_factor ∧ t.key_hash = s.key_hash ∧
    t.data_copy = s.data_copy ∧ t.data_free = s.data_free ∧ t.data_size = s.data_size ∧
    ((t.size : ℚ) + 1 ≤ (t.capacity : ℚ) * t.load_factor) ∧
    (liveList (t.item.getD [])).Perm (liveList (s.item.getD [])) := by
  obtain ⟨hcap, hsize, hlf, hkh, hdc, hdf, hds, arr', hitem, hr, hperm⟩ := resize_spec h
  have hcaplt : s.capacity < t.capacity := by
    rw [hcap]
    exact lt_grownCapacity s.capacity hw.lf_pos (le_of_lt hw.lf_lt)
  have hgetD : t.item.getD [] = arr' := by rw [hitem]; rfl
  have hsize_le : s.size + 1 ≤ s.capacity := hw.size_lt_cap
  have hsz : ((t.size : ℚ) + 1) ≤ (t.capacity : ℚ) * t.load_factor := by
    rw [hsize, hlf, hcap]
    have h1 : ((s.size : ℚ) + 1) ≤ (s.capacity : ℚ) := by exact_mod_cast hsize_le
    have h2 : (s.capacity : ℚ) < (grownCapacity s.capacity s.load_factor : ℚ) * s.load_factor :=
      lt_mul_grownCapacity s.capacity hw.lf_pos
    linarith
  have hcount : liveCount arr' = t.size := by
    unfold liveCount
    rw [hperm.length_eq, hsize]
    exact hw.count_getD
  refine ⟨?_, hsize, hcaplt, hlf, hkh, hdc, hdf, hds, hsz, by rw [hgetD]; exact hperm⟩
  refine ⟨by rw [hlf]; exact hw.lf_pos, by rw [hlf]; exact hw.lf_lt,
    by rw [hcap]; exact grownCapacity_pos _ _, hr.md_lt, by linarith, ?_, ?_, ?_, ?_, ?_⟩
  · intro hcon
    rw [hitem] at hcon
    cases hcon
  · intro arr2 harr2
    rw [hitem, Option.some_inj] at harr2
    rw [← harr2]
    exact hr.len
  · intro arr2 harr2
    rw [hitem, Option.some_inj] at harr2
    rw [← harr2]
    exact hcount
  · intro arr2 harr2 i hi k hk
    rw [hitem, Option.some_inj] at harr2
    subst harr2
    have hilen : i < arr'.length := by rw [hr.len]; exact hi
    have hmem : slotAt arr' i ∈ liveList arr' :=
      List.mem_filter.mpr ⟨slotAt_mem hilen, by rw [hk]; rfl⟩
    have hmem2 : slotAt arr' i ∈ liveList (s.item.getD []) := hperm.mem_iff.mp hmem
    rw [hkh]
    exact hw.hash_of_mem_getD hmem2 hk
  · intro arr2 harr2 i hi hocc
    rw [hitem, Option.some_inj] at harr2
    subst harr2
    exact hr.disp i hi hocc

theorem WFI_resize {V : Type} {s t : Hmap V} (hw : WFI s)
    (h : x__hmap_resize_items s = some t) : WFI t := by
  obtain ⟨hwt, _, _, _, _, _, _, _, _, hperm⟩ := WF_resize hw.toWF h
  obtain ⟨_, _, _, _, _, _, _, arr', hitem, hr, _⟩ := resize_spec h
  refine ⟨hwt, ?_, ?_⟩
  · intro arr2 harr2 i hi hocc u hu
    rw [hitem, Option.some_inj] at harr2
    subst harr2
    exact hr.path i hi hocc u hu
  · intro arr2 harr2
    rw [hitem, Option.some_inj] at harr2
    subst harr2
    have hg : t.item.getD [] = arr' := by rw [hitem]; rfl
    rw [hg] at hperm
    have hkperm := liveKeys_perm_of_liveList_perm hperm
    have hnd : (liveKeys (s.item.getD [])).Nodup := by
      cases hi2 : s.item with
      | none => exact List.nodup_nil
      | some arrs => exact hw.nodup arrs hi2
    exact hkperm.symm.nodup hnd

/-! ### The insert specification -/

theorem insMid_spec {V : Type} {s t : Hmap V} (hw : WF s) (h : insMid s = some t) :
    WF t ∧ t.load_factor = s.load_factor ∧ t.key_hash = s.key_hash ∧
    t.data_copy = s.data_copy ∧ t.data_free = s.data_free ∧ t.data_size = s.data_size ∧
    t.size = s.size ∧ s.capacity ≤ t.capacity ∧
    ((t.size : ℚ) + 1 ≤ (t.capacity : ℚ) * t.load_factor) ∧
    (∃ arr, t.item = some arr) ∧
    (liveList (t.item.getD [])).Perm (liveList (s.item.getD [])) := by
  unfold insMid at h
  obtain ⟨hwa, hsz, hcap, hlf, hkh, hdc, hdf, hds, hmd, hlive, arr, hitem⟩ := WF_insAlloc hw
  by_cases hg : growthCond (insAlloc s)
  · rw [if_pos hg] at h
    obtain ⟨hwt, hsz2, hcap2, hlf2, hkh2, hdc2, hdf2, hds2, hbound, hperm⟩ := WF_resize hwa h
    refine ⟨hwt, by rw [hlf2, hlf], by rw [hkh2, hkh], by rw [hdc2, hdc], by rw [hdf2, hdf],
      by rw [hds2, hds], by rw [hsz2, hsz], by rw [← hcap]; omega, hbound, ?_, ?_⟩
    · obtain ⟨_, _, _, _, _, _, _, arr2, hitem2, _, _⟩ := resize_spec h
      exact ⟨arr2, hitem2⟩
    · rw [hlive] at hperm
      exact hperm
  · rw [if_neg hg] at h
    rw [Option.some_inj] at h
    subst h
    unfold growthCond at hg
    push_neg at hg
    rw [hsz, hcap, hlf] at hg
    refine ⟨hwa, hlf, hkh, hdc, hdf, hds, hsz, by omega, ?_, ⟨arr, hitem⟩, by rw [hlive]⟩
    rw [hsz, hcap, hlf]
    exact hg

theorem insMid_WFI {V : Type} {s t : Hmap V} (hw : WFI s) (h : insMid s = some t) :
    WFI t := by
  unfold insMid at h
  by_cases hg : growthCond (insAlloc s)
  · rw [if_pos hg] at h
    exact WFI_resize (WFI_insAlloc hw) h
  · rw [if_neg hg] at h
    rw [Option.some_inj] at h
    subst h
    exact WFI_insAlloc hw

theorem insert_branches {V : Type} {s s' : Hmap V} {key : String} {data : Option V}
    {keep : Bool} {r : Option V}
    (h : hmap_insert s key data keep = some (s', r)) :
    ∃ t, insMid s = some t ∧
      ((∃ i dd, probeLoop (t.item.getD []) t.capacity (t.key_hash key) key t.capacity
          (t.key_hash key % t.capacity) 0 = some (.empty i dd) ∧ r = none ∧
        s' = { t with
          item := some ((t.item.getD []).set i
            (x__hmap_item_create t key data (t.key_hash key)))
          max_dist := max t.max_dist dd
          size := t.size + 1 }) ∨
      (∃ i dd, probeLoop (t.item.getD []) t.capacity (t.key_hash key) key t.capacity
          (t.key_hash key % t.capacity) 0 = some (.found i dd) ∧
        r = (slotAt (t.item.getD []) i).data ∧
        s' = { t with
          item := some (if keep then t.item.getD []
            else (t.item.getD []).set i
              { slotAt (t.item.getD []) i with data := data }) })) := by
  unfold hmap_insert at h
  cases hmid : insMid s with
  | none => rw [hmid] at h; cases h
  | some t =>
    rw [hmid] at h
    have h1 : x__insert_probe t key data keep = some (s', r) := h
    refine ⟨t, rfl, ?_⟩
    unfold x__insert_probe at h1
    cases hp : probeLoop (t.item.getD []) t.capacity (t.key_hash key) key t.capacity
        (t.key_hash key % t.capacity) 0 with
    | none => rw [hp] at h1; cases h1
    | some res =>
      rw [hp] at h1
      cases res with
      | empty i dd =>
        have h2 : (some ({ t with
            item := some ((t.item.getD []).set i
              (x__hmap_item_create t key data (t.key_hash key)))
            max_dist := max t.max_dist dd
            size := t.size + 1 }, (none : Option V)) : Option (Hmap V × Option V))
            = some (s', r) := h1
        simp only [Option.some_inj, Prod.mk.injEq] at h2
        exact Or.inl ⟨i, dd, rfl, h2.2.symm, h2.1.symm⟩
      | found i dd =>
        have h2 : (some ({ t with
            item := some (if keep then t.item.getD []
              else (t.item.getD []).set i
                { slotAt (t.item.getD []) i with data := data }) },
            (slotAt (t.item.getD []) i).data) : Option (Hmap V × Option V))
            = some (s', r) := h1
        simp only [Option.some_inj, Prod.mk.injEq] at h2
        exact Or.inr ⟨i, dd, rfl, h2.2.symm, h2.1.symm⟩

theorem probe_empty_facts {V : Type} {t : Hmap V} (hw : WF t) {arr : List (HmapItem V)}
    (hitem : t.item = some arr) {key : String} {i dd : Nat}
    (hp : probeLoop arr t.capacity (t.key_hash key) key t.capacity
      (t.key_hash key % t.capacity) 0 = some (.empty i dd)) :
    i < t.capacity ∧ i < arr.length ∧ dd < t.capacity ∧
    (slotAt arr i).key = none ∧
    wdist t.capacity (t.key_hash key % t.capacity) i = dd ∧
    i = (t.key_hash key % t.capacity + dd) % t.capacity ∧
    ∀ u, u < dd → (slotAt arr ((t.key_hash key % t.capacity + u) % t.capacity)).key.isSome ∧
      ¬((slotAt arr ((t.key_hash key % t.capacity + u) % t.capacity)).key = some key ∧
        (slotAt arr ((t.key_hash key % t.capacity + u) % t.capacity)).hash
          = t.key_hash key) := by
  have hcap := hw.cap_pos
  have hstart : t.key_hash key % t.capacity < t.capacity := Nat.mod_lt _ hcap
  obtain ⟨tt, htt, hd0, hieq, hempty, hprev⟩ :=
    probeLoop_some_empty t.capacity (t.key_hash key % t.capacity) 0 i dd hcap hstart hp
  have hdd : dd = tt := by omega
  subst hdd
  have hi_cap : i < t.capacity := by rw [hieq]; exact Nat.mod_lt _ hcap
  refine ⟨hi_cap, by rw [hw.len_eq arr hitem]; exact hi_cap, htt, hempty, ?_, hieq, hprev⟩
  rw [hieq, wdist_add hstart, Nat.mod_eq_of_lt htt]

theorem probe_found_facts {V : Type} {t : Hmap V} (hw : WF t) {arr : List (HmapItem V)}
    (hitem : t.item = some arr) {key : String} {i dd : Nat}
    (hp : probeLoop arr t.capacity (t.key_hash key) key t.capacity
      (t.key_hash key % t.capacity) 0 = some (.found i dd)) :
    i < t.capacity ∧ i < arr.length ∧
    (slotAt arr i).key = some key ∧ (slotAt arr i).hash = t.key_hash key := by
  have hcap := hw.cap_pos
  have hstart : t.key_hash key % t.capacity < t.capacity := Nat.mod_lt _ hcap
  obtain ⟨tt, htt, hd0, hieq, hmatch, hprev⟩ :=
    probeLoop_some_found t.capacity (t.key_hash key % t.capacity) 0 i dd hcap hstart hp
  have hi_cap : i < t.capacity := by rw [hieq]; exact Nat.mod_lt _ hcap
  exact ⟨hi_cap, by rw [hw.len_eq arr hitem]; exact hi_cap, hmatch.1, hmatch.2⟩

/-- If the insert probe lands on an empty slot, the key is not live: in an
insert-only (path-intact, duplicate-free) container, the probe cannot run
past an existing entry for the key. -/
theorem not_live_of_probe_empty {V : Type} {t : Hmap V} (hw : WFI t)
    {arr : List (HmapItem V)} (hitem : t.item = some arr) {key : String} {i dd : Nat}
    (hp : probeLoop arr t.capacity (t.key_hash key) key t.capacity
      (t.key_hash key % t.capacity) 0 = some (.empty i dd)) :
    key ∉ liveKeys arr := by
  obtain ⟨hi_cap, hi_len, hdd_cap, hempty, hwd, hieq, hprev⟩ :=
    probe_empty_facts hw.toWF hitem hp
  intro hmem
  obtain ⟨j, hj_len, hkj⟩ := keyLive_iff.mp hmem
  have hcap := hw.cap_pos
  have hstart : t.key_hash key % t.capacity < t.capacity := Nat.mod_lt _ hcap
  have hj_cap : j < t.capacity := by rw [← hw.len_eq arr hitem]; exact hj_len
  have hhash : (slotAt arr j).hash = t.key_hash key := hw.hash_ok arr hitem j hj_cap key hkj
  have hjocc : (slotAt arr j).key.isSome := by rw [hkj]; rfl
  have hdisp := hw.disp_le arr hitem j hj_cap hjocc
  rw [hhash] at hdisp
  have hjeq : (t.key_hash key % t.capacity + wdist t.capacity
      (t.key_hash key % t.capacity) j) % t.capacity = j := add_wdist hstart hj_cap
  set dj := wdist t.capacity (t.key_hash key % t.capacity) j with hdjdef
  have hdj_cap : dj < t.capacity := wdist_lt _ _ hcap
  rcases lt_trichotomy dj dd with hlt | heq | hgt
  · have := (hprev dj hlt).2
    rw [hjeq] at this
    exact this ⟨hkj, hhash⟩
  · rw [heq] at hjeq
    rw [← hieq] at hjeq
    rw [← hjeq] at hkj
    rw [hempty] at hkj
    cases hkj
  · have hpath := hw.path_ok arr hitem j hj_cap hjocc dd (by rw [hhash]; exact hgt)
    rw [hhash] at hpath
    rw [← hieq] at hpath
    rw [hempty] at hpath
    cases hpath

theorem WF_insert {V : Type} {s s' : Hmap V} {key : String} {data : Option V} {keep : Bool}
    {r : Option V} (hw : WF s) (h : hmap_insert s key data keep = some (s', r)) :
    WF s' ∧ s.capacity ≤ s'.capacity ∧ s'.load_factor = s.load_factor ∧
    s'.key_hash = s.key_hash ∧ s'.data_copy = s.data_copy ∧ s'.data_free = s.data_free ∧
    s'.data_size = s.data_size := by
  obtain ⟨t, hmid, hbr⟩ := insert_branches h
  obtain ⟨hwt, hlf, hkh, hdc, hdf, hds, hsz, hcaple, hbound, ⟨arr, hitem⟩, hperm⟩ :=
    insMid_spec hw hmid
  have hgetD : t.item.getD [] = arr := by rw [hitem]; rfl
  rw [hgetD] at hbr
  cases hbr with
  | inl hemp =>
    obtain ⟨i, dd, hp, hr, hs'⟩ := hemp
    obtain ⟨hi_cap, hi_len, hdd_cap, hempty, hwd, hieq, hprev⟩ :=
      probe_empty_facts hwt hitem hp
    have hoccnew : (x__hmap_item_create t key data (t.key_hash key)).key.isSome := rfl
    have hfill := liveList_fill_perm hi_len hempty hoccnew
    subst hs'
    refine ⟨⟨hwt.lf_pos, hwt.lf_lt, hwt.cap_pos, max_lt hwt.md_lt hdd_cap,
      by push_cast; exact hbound, ?_, ?_, ?_, ?_, ?_⟩, hcaple, hlf, hkh, hdc, hdf, hds⟩
    · intro hcon
      exact Option.noConfusion hcon
    · intro arr2 harr2
      have harr2' : arr.set i (x__hmap_item_create t key data (t.key_hash key)) = arr2 :=
        Option.some_inj.mp harr2
      rw [← harr2', List.length_set]
      exact hwt.len_eq arr hitem
    · intro arr2 harr2
      have harr2' : arr.set i (x__hmap_item_create t key data (t.key_hash key)) = arr2 :=
        Option.some_inj.mp harr2
      rw [← harr2']
      unfold liveCount
      rw [hfill.length_eq, List.length_cons]
      have hc := hwt.count_eq arr hitem
      unfold liveCount at hc
      rw [hc]
    · intro arr2 harr2 j hj k hk
      have harr2' : arr.set i (x__hmap_item_create t key data (t.key_hash key)) = arr2 :=
        Option.some_inj.mp harr2
      subst harr2'
      by_cases hij : i = j
      · subst hij
        rw [slotAt_set_self hi_len] at hk ⊢
        have : key = k := Option.some_inj.mp hk
        subst this
        rfl
      · rw [slotAt_set_ne hij] at hk ⊢
        exact hwt.hash_ok arr hitem j hj k hk
    · intro arr2 harr2 j hj hocc
      have harr2' : arr.set i (x__hmap_item_create t key data (t.key_hash key)) = arr2 :=
        Option.some_inj.mp harr2
      subst harr2'
      by_cases hij : i = j
      · subst hij
        rw [slotAt_set_self hi_len]
        show wdist t.capacity (t.key_hash key % t.capacity) i ≤ max t.max_dist dd
        rw [hwd]
        exact le_max_right _ _
      · rw [slotAt_set_ne hij] at hocc ⊢
        exact le_trans (hwt.disp_le arr hitem j hj hocc) (le_max_left _ _)
  | inr hfound =>
    obtain ⟨i, dd, hp, hr, hs'⟩ := hfound
    obtain ⟨hi_cap, hi_len, hkey_i, hhash_i⟩ := probe_found_facts hwt hitem hp
    cases keep with
    | true =>
      have hteq : s' = t := by
        rw [hs', if_pos rfl, ← hitem]
      subst hteq
      exact ⟨hwt, hcaple, hlf, hkh, hdc, hdf, hds⟩
    | false =>
      have hkeq : ∀ j, (slotAt (arr.set i { slotAt arr i with data := data }) j).key
          = (slotAt arr j).key ∧
          (slotAt (arr.set i { slotAt arr i with data := data }) j).hash
          = (slotAt arr j).hash := by
        intro j
        by_cases hij : i = j
        · subst hij
          rw [slotAt_set_self hi_len]
          exact ⟨rfl, rfl⟩
        · rw [slotAt_set_ne hij]
          exact ⟨rfl, rfl⟩
      have hocc2 : ({ slotAt arr i with data := data } : HmapItem V).key.isSome := by
        show (slotAt arr i).key.isSome
        rw [hkey_i]
        rfl
      obtain ⟨hlk_eq, hlc_eq⟩ :=
        @liveKeys_replace V arr i { slotAt arr i with data := data } hi_len rfl hocc2
      have hs'' : s' = { t with item := some (arr.set i { slotAt arr i with data := data }) } := by
        rw [hs', if_neg (by simp)]
      subst hs''
      refine ⟨⟨hwt.lf_pos, hwt.lf_lt, hwt.cap_pos, hwt.md_lt, ?_, ?_, ?_, ?_, ?_, ?_⟩,
        hcaple, hlf, hkh, hdc, hdf, hds⟩
      · exact hwt.size_le
      · intro hcon
        exact Option.noConfusion hcon
      · intro arr2 harr2
        have harr2' : arr.set i { slotAt arr i with data := data } = arr2 :=
          Option.some_inj.mp harr2
        rw [← harr2', List.length_set]
        exact hwt.len_eq arr hitem
      · intro arr2 harr2
        have harr2' : arr.set i { slotAt arr i with data := data } = arr2 :=
          Option.some_inj.mp harr2
        rw [← harr2']
        rw [hlc_eq]
        exact hwt.count_eq arr hitem
      · intro arr2 harr2 j hj k hk
        have harr2' : arr.set i { slotAt arr i with data := data } = arr2 :=
          Option.some_inj.mp harr2
        subst harr2'
        rw [(hkeq j).1] at hk
        rw [(hkeq j).2]
        exact hwt.hash_ok arr hitem j hj k hk
      · intro arr2 harr2 j hj hocc
        have harr2' : arr.set i { slotAt arr i with data := data } = arr2 :=
          Option.some_inj.mp harr2
        subst harr2'
        rw [(hkeq j).1] at hocc
        rw [(hkeq j).2]
        exact hwt.disp_le arr hitem j hj hocc

theorem WFI_insert {V : Type} {s s' : Hmap V} {key : String} {data : Option V} {keep : Bool}
    {r : Option V} (hw : WFI s) (h : hmap_insert s key data keep = some (s', r)) :
    WFI s' := by
  obtain ⟨t, hmid, hbr⟩ := insert_branches h
  have hwit : WFI t := insMid_WFI hw hmid
  have hwt : WF t := hwit.toWF
  obtain ⟨_, hlf, hkh, hdc, hdf, hds, hsz, hcaple, hbound, ⟨arr, hitem⟩, hperm⟩ :=
    insMid_spec hw.toWF hmid
  have hgetD : t.item.getD [] = arr := by rw [hitem]; rfl
  rw [hgetD] at hbr
  have hwf' : WF s' := by
    obtain ⟨hwf, _⟩ := WF_insert hw.toWF h
    exact hwf
  cases hbr with
  | inl hemp =>
    obtain ⟨i, dd, hp, hr, hs'⟩ := hemp
    obtain ⟨hi_cap, hi_len, hdd_cap, hempty, hwd, hieq, hprev⟩ :=
      probe_empty_facts hwt hitem hp
    have hoccnew : (x__hmap_item_create t key data (t.key_hash key)).key.isSome := rfl
    have hfill := liveList_fill_perm hi_len hempty hoccnew
    have hnotlive : key ∉ liveKeys arr := not_live_of_probe_empty hwit hitem hp
    subst hs'
    refine ⟨hwf', ?_, ?_⟩
    · intro arr2 harr2 j hj hocc u hu
      have harr2' : arr.set i (x__hmap_item_create t key data (t.key_hash key)) = arr2 :=
        Option.some_inj.mp harr2
      subst harr2'
      have hj2 : j < t.capacity := hj
      by_cases hij : i = j
      · subst hij
        rw [slotAt_set_self hi_len] at hu
        have hu2 : u < dd := by
          have h3 : u < wdist t.capacity (t.key_hash key % t.capacity) i := hu
          rw [hwd] at h3
          exact h3
        rw [slotAt_set_self hi_len]
        show (slotAt (arr.set i (x__hmap_item_create t key data (t.key_hash key)))
          ((t.key_hash key % t.capacity + u) % t.capacity)).key.isSome
        exact occupied_mono_set hoccnew (hprev u hu2).1
      · rw [slotAt_set_ne hij] at hocc hu ⊢
        have hu2 : u < wdist t.capacity ((slotAt arr j).hash % t.capacity) j := hu
        have hpath := hwit.path_ok arr hitem j hj2 hocc u hu2
        show (slotAt (arr.set i (x__hmap_item_create t key data (t.key_hash key)))
          (((slotAt arr j).hash % t.capacity + u) % t.capacity)).key.isSome
        exact occupied_mono_set hoccnew hpath
    · intro arr2 harr2
      have harr2' : arr.set i (x__hmap_item_create t key data (t.key_hash key)) = arr2 :=
        Option.some_inj.mp harr2
      subst harr2'
      have hkperm : (liveKeys (arr.set i (x__hmap_item_create t key data (t.key_hash key)))).Perm
          (key :: liveKeys arr) := by
        have h1 := hfill.filterMap (·.key)
        rw [List.filterMap_cons] at h1
        have h2 : ((liveList (arr.set i
            (x__hmap_item_create t key data (t.key_hash key)))).filterMap (·.key)).Perm
            (key :: (liveList arr).filterMap (·.key)) := h1
        rw [liveKeys_eq_filterMap_liveList, liveKeys_eq_filterMap_liveList]
        exact h2
      have hnd : (key :: liveKeys arr).Nodup :=
        List.nodup_cons.mpr ⟨hnotlive, hwit.nodup arr hitem⟩
      exact hkperm.symm.nodup hnd
  | inr hfound =>
    obtain ⟨i, dd, hp, hr, hs'⟩ := hfound
    obtain ⟨hi_cap, hi_len, hkey_i, hhash_i⟩ := probe_found_facts hwt hitem hp
    cases keep with
    | true =>
      have hteq : s' = t := by
        rw [hs', if_pos rfl, ← hitem]
      subst hteq
      exact hwit
    | false =>
      have hkeq : ∀ j, (slotAt (arr.set i { slotAt arr i with data := data }) j).key
          = (slotAt arr j).key ∧
          (slotAt (arr.set i { slotAt arr i with data := data }) j).hash
          = (slotAt arr j).hash := by
        intro j
        by_cases hij : i = j
        · subst hij
          rw [slotAt_set_self hi_len]
          exact ⟨rfl, rfl⟩
        · rw [slotAt_set_ne hij]
          exact ⟨rfl, rfl⟩
      have hocc2 : ({ slotAt arr i with data := data } : HmapItem V).key.isSome := by
        show (slotAt arr i).key.isSome
        rw [hkey_i]
        rfl
      obtain ⟨hlk_eq, hlc_eq⟩ :=
        @liveKeys_replace V arr i { slotAt arr i with data := data } hi_len rfl hocc2
      have hs'' : s' = { t with item := some (arr.set i { slotAt arr i with data := data }) } := by
        rw [hs', if_neg (by simp)]
      subst hs''
      refine ⟨hwf', ?_, ?_⟩
      · intro arr2 harr2 j hj hocc u hu
        have harr2' : arr.set i { slotAt arr i with data := data } = arr2 :=
          Option.some_inj.mp harr2
        subst harr2'
        have hj2 : j < t.capacity := hj
        rw [(hkeq j).1] at hocc
        rw [(hkeq j).2] at hu
        have hu2 : u < wdist t.capacity ((slotAt arr j).hash % t.capacity) j := hu
        have hpath := hwit.path_ok arr hitem j hj2 hocc u hu2
        have hidx := (hkeq (((slotAt arr j).hash % t.capacity + u) % t.capacity)).1
        rw [(hkeq j).2]
        show (slotAt (arr.set i { slotAt arr i with data := data })
          (((slotAt arr j).hash % t.capacity + u) % t.capacity)).key.isSome
        rw [hidx]
        exact hpath
      · intro arr2 harr2
        have harr2' : arr.set i { slotAt arr i with data := data } = arr2 :=
          Option.some_inj.mp harr2
        subst harr2'
        rw [hlk_eq]
        exact hwit.nodup arr hitem

/-! ### The find and remove specifications -/

theorem scanLoop_some_matches {V : Type} {arr : List (HmapItem V)} {cap hash : Nat}
    {key : String} :
    ∀ fuel i dist j d, scanLoop arr cap hash key fuel i dist = some (j, d) →
    (slotAt arr j).key = some key ∧ (slotAt arr j).hash = hash := by
  intro fuel
  induction fuel with
  | zero => intro i dist j d h; exact absurd h (by simp [scanLoop])
  | succ fuel ih =>
    intro i dist j d h
    rw [scanLoop] at h
    by_cases hm : (slotAt arr i).key = some key ∧ (slotAt arr i).hash = hash
    · rw [if_pos hm] at h
      simp only [Option.some_inj, Prod.mk.injEq] at h
      obtain ⟨rfl, rfl⟩ := h
      exact hm
    · rw [if_neg hm] at h
      exact ih _ _ _ _ h

/-- `hmap_find` returns the data of the (unique) live slot holding the key. -/
theorem find_some_of_slot {V : Type} {s : Hmap V} (hw : WF s) {arr : List (HmapItem V)}
    (hs : s.item = some arr) (hnd : (liveKeys arr).Nodup) {i : Nat} {k : String}
    (hi : i < s.capacity) (hk : (slotAt arr i).key = some k) :
    hmap_find s k = (slotAt arr i).data := by
  have hlen : arr.length = s.capacity := hw.len_eq arr hs
  have hilen : i < arr.length := by rw [hlen]; exact hi
  have hlive : k ∈ liveKeys arr := keyLive_iff.mpr ⟨i, hilen, hk⟩
  have hszpos : 0 < s.size := by
    rw [← hw.count_eq arr hs]
    exact liveCount_pos_of_keyLive hlive
  have hcap := hw.cap_pos
  have hhash : (slotAt arr i).hash = s.key_hash k := hw.hash_ok arr hs i hi k hk
  have hstart : s.key_hash k % s.capacity < s.capacity := Nat.mod_lt _ hcap
  have hocc : (slotAt arr i).key.isSome := by rw [hk]; rfl
  have hdisp := hw.disp_le arr hs i hi hocc
  rw [hhash] at hdisp
  have hieq : (s.key_hash k % s.capacity
      + wdist s.capacity (s.key_hash k % s.capacity) i) % s.capacity = i :=
    add_wdist hstart hi
  have hmatch : (slotAt arr ((s.key_hash k % s.capacity
        + wdist s.capacity (s.key_hash k % s.capacity) i) % s.capacity)).key = some k ∧
      (slotAt arr ((s.key_hash k % s.capacity
        + wdist s.capacity (s.key_hash k % s.capacity) i) % s.capacity)).hash
        = s.key_hash k := by
    rw [hieq]
    exact ⟨hk, hhash⟩
  have hsome := scanLoop_isSome_of_match (wdist s.capacity (s.key_hash k % s.capacity) i)
    (s.max_dist + 1) (s.key_hash k % s.capacity) 0 (by omega) hcap hstart hmatch
  have hg : s.item.getD [] = arr := by rw [hs]; rfl
  unfold hmap_find
  rw [if_neg (by omega), hg]
  cases hscan : scanLoop arr s.capacity (s.key_hash k) k (s.max_dist + 1)
      (s.key_hash k % s.capacity) 0 with
  | none =>
    rw [hscan] at hsome
    cases hsome
  | some pr =>
    obtain ⟨j, dj⟩ := pr
    show (slotAt arr j).data = (slotAt arr i).data
    obtain ⟨hkj, hhj⟩ := scanLoop_some_matches _ _ _ _ _ hscan
    have hjlen : j < arr.length := by
      by_contra hcon
      push_neg at hcon
      rw [slotAt_of_le hcon] at hkj
      cases hkj
    have hij : i = j := nodup_liveKeys_inj arr hnd i j hilen hjlen k hk hkj
    rw [hij]

/-- `hmap_find` on an absent key returns the NULL sentinel. -/
theorem find_none_of_not_live {V : Type} {s : Hmap V} {k : String}
    (h : k ∉ liveKeys (s.item.getD [])) : hmap_find s k = none := by
  unfold hmap_find
  by_cases hsz : s.size = 0
  · rw [if_pos hsz]
  · rw [if_neg hsz]
    cases hscan : scanLoop (s.item.getD []) s.capacity (s.key_hash k) k (s.max_dist + 1)
        (s.key_hash k % s.capacity) 0 with
    | none => rfl
    | some pr =>
      exfalso
      obtain ⟨j, dj⟩ := pr
      obtain ⟨hkj, _⟩ := scanLoop_some_matches _ _ _ _ _ hscan
      have hjlen : j < (s.item.getD []).length := by
        by_contra hcon
        push_neg at hcon
        rw [slotAt_of_le hcon] at hkj
        cases hkj
      exact h (keyLive_iff.mpr ⟨j, hjlen, hkj⟩)

/-- `hmap_remove` on an absent key is a no-op returning the NULL sentinel. -/
theorem remove_none_of_not_live {V : Type} {s : Hmap V} {k : String}
    (h : k ∉ liveKeys (s.item.getD [])) : hmap_remove s k = (s, none) := by
  unfold hmap_remove
  by_cases hsz : s.size = 0
  · rw [if_pos hsz]
  · rw [if_neg hsz]
    cases hscan : scanLoop (s.item.getD []) s.capacity (s.key_hash k) k (s.max_dist + 1)
        (s.key_hash k % s.capacity) 0 with
    | none => rfl
    | some pr =>
      exfalso
      obtain ⟨j, dj⟩ := pr
      obtain ⟨hkj, _⟩ := scanLoop_some_matches _ _ _ _ _ hscan
      have hjlen : j < (s.item.getD []).length := by
        by_contra hcon
        push_neg at hcon
        rw [slotAt_of_le hcon] at hkj
        cases hkj
      exact h (keyLive_iff.mpr ⟨j, hjlen, hkj⟩)

/-- `hmap_remove` on a present key (in a well-formed state) clears the
matched slot in place, decrements `size` and hands back the stored data. -/
theorem remove_present {V : Type} {s : Hmap V} (hw : WF s) {k : String}
    (hlive : k ∈ liveKeys (s.item.getD [])) :
    ∃ arr i, s.item = some arr ∧ i < arr.length ∧ (slotAt arr i).key = some k ∧
      0 < s.size ∧
      hmap_remove s k
        = ({ s with item := some (arr.set i (emptyItem V)), size := s.size - 1 },
          (slotAt arr i).data) := by
  cases hs : s.item with
  | none =>
    rw [hs] at hlive
    cases hlive
  | some arr =>
    have hg : s.item.getD [] = arr := by rw [hs]; rfl
    rw [hg] at hlive
    obtain ⟨j, hjlen, hkj⟩ := keyLive_iff.mp hlive
    have hszpos : 0 < s.size := by
      rw [← hw.count_eq arr hs]
      exact liveCount_pos_of_keyLive hlive
    have hcap := hw.cap_pos
    have hj_cap : j < s.capacity := by rw [← hw.len_eq arr hs]; exact hjlen
    have hhash : (slotAt arr j).hash = s.key_hash k := hw.hash_ok arr hs j hj_cap k hkj
    have hstart : s.key_hash k % s.capacity < s.capacity := Nat.mod_lt _ hcap
    have hocc : (slotAt arr j).key.isSome := by rw [hkj]; rfl
    have hdisp := hw.disp_le arr hs j hj_cap hocc
    rw [hhash] at hdisp
    have hjeq : (s.key_hash k % s.capacity
        + wdist s.capacity (s.key_hash k % s.capacity) j) % s.capacity = j :=
      add_wdist hstart hj_cap
    have hmatch : (slotAt arr ((s.key_hash k % s.capacity
          + wdist s.capacity (s.key_hash k % s.capacity) j) % s.capacity)).key = some k ∧
        (slotAt arr ((s.key_hash k % s.capacity
          + wdist s.capacity (s.key_hash k % s.capacity) j) % s.capacity)).hash
          = s.key_hash k := by
      rw [hjeq]
      exact ⟨hkj, hhash⟩
    have hsome := scanLoop_isSome_of_match (wdist s.capacity (s.key_hash k % s.capacity) j)
      (s.max_dist + 1) (s.key_hash k % s.capacity) 0 (by omega) hcap hstart hmatch
    cases hscan : scanLoop arr s.capacity (s.key_hash k) k (s.max_dist + 1)
        (s.key_hash k % s.capacity) 0 with
    | none =>
      rw [hscan] at hsome
      cases hsome
    | some pr =>
      obtain ⟨i, di⟩ := pr
      obtain ⟨hki, hhi⟩ := scanLoop_some_matches _ _ _ _ _ hscan
      have hilen : i < arr.length := by
        by_contra hcon
        push_neg at hcon
        rw [slotAt_of_le hcon] at hki
        cases hki
      refine ⟨arr, i, rfl, hilen, hki, hszpos, ?_⟩
      unfold hmap_remove
      rw [if_neg (by omega), hg, hscan]

theorem WF_remove {V : Type} {s : Hmap V} (hw : WF s) (k : String) :
    WF (hmap_remove s k).1 ∧ (hmap_remove s k).1.capacity = s.capacity ∧
    (hmap_remove s k).1.load_factor = s.load_factor ∧
    (hmap_remove s k).1.key_hash = s.key_hash ∧
    (hmap_remove s k).1.data_copy = s.data_copy ∧
    (hmap_remove s k).1.data_free = s.data_free ∧
    (hmap_remove s k).1.data_size = s.data_size := by
  by_cases hlive : k ∈ liveKeys (s.item.getD [])
  · obtain ⟨arr, i, hs, hilen, hki, hszpos, hrem⟩ := remove_present hw hlive
    rw [hrem]
    have hclear := liveList_clear_perm hilen hki
    refine ⟨⟨hw.lf_pos, hw.lf_lt, hw.cap_pos, hw.md_lt, ?_, ?_, ?_, ?_, ?_, ?_⟩,
      rfl, rfl, rfl, rfl, rfl, rfl⟩
    · have h1 : ((s.size - 1 : Nat) : ℚ) ≤ (s.size : ℚ) := by
        have := Nat.sub_le s.size 1
        exact_mod_cast this
      exact le_trans h1 hw.size_le
    · intro hcon
      exact Option.noConfusion hcon
    · intro arr2 harr2
      have harr2' : arr.set i (emptyItem V) = arr2 := Option.some_inj.mp harr2
      rw [← harr2', List.length_set]
      exact hw.len_eq arr hs
    · intro arr2 harr2
      have harr2' : arr.set i (emptyItem V) = arr2 := Option.some_inj.mp harr2
      rw [← harr2']
      show liveCount (arr.set i (emptyItem V)) = s.size - 1
      have hlen := hclear.length_eq
      rw [List.length_cons] at hlen
      have hc := hw.count_eq arr hs
      unfold liveCount at hc ⊢
      omega
    · intro arr2 harr2 j hj kk hkk
      have harr2' : arr.set i (emptyItem V) = arr2 := Option.some_inj.mp harr2
      subst harr2'
      by_cases hij : i = j
      · subst hij
        rw [slotAt_set_self hilen] at hkk
        cases hkk
      · rw [slotAt_set_ne hij] at hkk ⊢
        exact hw.hash_ok arr hs j hj kk hkk
    · intro arr2 harr2 j hj hocc
      have harr2' : arr.set i (emptyItem V) = arr2 := Option.some_inj.mp harr2
      subst harr2'
      by_cases hij : i = j
      · subst hij
        rw [slotAt_set_self hilen] at hocc
        cases hocc
      · rw [slotAt_set_ne hij] at hocc ⊢
        exact hw.disp_le arr hs j hj hocc
  · rw [remove_none_of_not_live hlive]
    exact ⟨hw, rfl, rfl, rfl, rfl, rfl, rfl⟩

/-! ### Functional behaviour of insert: fresh keys and duplicates -/

/-- The container holds a live slot with exactly this key, data, and the
cached hash of the key. -/
def HasSlot {V : Type} (s : Hmap V) (k : String) (v : Option V) : Prop :=
  ∃ arr i, s.item = some arr ∧ i < arr.length ∧
    slotAt arr i = ⟨some k, v, s.key_hash k⟩

theorem mem_liveList_iff {V : Type} {arr : List (HmapItem V)} {it : HmapItem V}
    (hocc : it.key.isSome) :
    it ∈ liveList arr ↔ ∃ i, i < arr.length ∧ slotAt arr i = it := by
  constructor
  · intro hmem
    obtain ⟨n, hget⟩ := List.mem_iff_get.mp (List.mem_filter.mp hmem).1
    refine ⟨n.1, n.isLt, ?_⟩
    rw [slotAt_get n.isLt]
    have hfin : (⟨n.1, n.isLt⟩ : Fin arr.length) = n := by cases n; rfl
    rw [hfin, hget]
  · rintro ⟨i, hi, hslot⟩
    refine List.mem_filter.mpr ⟨?_, hocc⟩
    rw [← hslot]
    exact slotAt_mem hi

/-- In a list of items whose keys are pairwise distinct, an item is
determined by its key. -/
theorem item_of_key_unique {V : Type} :
    ∀ (l : List (HmapItem V)), (l.filterMap (·.key)).Nodup →
    ∀ {it it' : HmapItem V} {k : String}, it ∈ l → it' ∈ l →
    it.key = some k → it'.key = some k → it = it' := by
  intro l
  induction l with
  | nil =>
    intro _ it it' k hmem
    cases hmem
  | cons a l ih =>
    intro hnd it it' k hmem hmem' hk hk'
    rw [List.filterMap_cons] at hnd
    have htail : (l.filterMap (·.key)).Nodup ∧
        (a.key = some k → k ∉ l.filterMap (·.key)) := by
      cases hak : a.key with
      | none =>
        rw [hak] at hnd
        refine ⟨hnd, ?_⟩
        intro hcon
        cases hcon
      | some k2 =>
        rw [hak] at hnd
        have h2 := List.nodup_cons.mp hnd
        refine ⟨h2.2, ?_⟩
        intro hcon
        rw [Option.some_inj] at hcon
        rw [← hcon]
        exact h2.1
    cases hmem with
    | head =>
      cases hmem' with
      | head => rfl
      | tail _ hm' =>
        exact absurd (List.mem_filterMap.mpr ⟨it', hm', hk'⟩) (htail.2 hk)
    | tail _ hm =>
      cases hmem' with
      | head =>
        exact absurd (List.mem_filterMap.mpr ⟨it, hm, hk⟩) (htail.2 hk')
      | tail _ hm' => exact ih htail.1 hm hm' hk hk'

theorem liveKeys_set_sub {V : Type} {arr : List (HmapItem V)} {i : Nat} {it : HmapItem V}
    {k' : String} (h : k' ∈ liveKeys (arr.set i it)) :
    it.key = some k' ∨ k' ∈ liveKeys arr := by
  obtain ⟨j, hjlen, hkj⟩ := keyLive_iff.mp h
  rw [List.length_set] at hjlen
  by_cases hij : i = j
  · subst hij
    rw [slotAt_set_self hjlen] at hkj
    exact Or.inl hkj
  · rw [slotAt_set_ne hij] at hkj
    exact Or.inr (keyLive_iff.mpr ⟨j, hjlen, hkj⟩)

/-- Keys live after an insert are the inserted key or previously live keys. -/
theorem insert_liveKeys_sub {V : Type} {s s' : Hmap V} {key : String} {data : Option V}
    {keep : Bool} {r : Option V} (hw : WF s)
    (h : hmap_insert s key data keep = some (s', r)) :
    ∀ k', k' ∈ liveKeys (s'.item.getD []) → k' = key ∨ k' ∈ liveKeys (s.item.getD []) := by
  obtain ⟨t, hmid, hbr⟩ := insert_branches h
  obtain ⟨hwt, hlf, hkh, hdc, hdf, hds, hsz, hcaple, hbound, ⟨arr, hitem⟩, hperm⟩ :=
    insMid_spec hw hmid
  have hgetD : t.item.getD [] = arr := by rw [hitem]; rfl
  rw [hgetD] at hbr
  have hperm' : (liveList arr).Perm (liveList (s.item.getD [])) := by
    rw [← hgetD]
    exact hperm
  have hkp := liveKeys_perm_of_liveList_perm hperm'
  intro k' hk'
  cases hbr with
  | inl hemp =>
    obtain ⟨i, dd, hp, hr, hs'⟩ := hemp
    subst hs'
    have hk'2 : k' ∈ liveKeys (arr.set i (x__hmap_item_create t key data (t.key_hash key))) := hk'
    cases liveKeys_set_sub hk'2 with
    | inl hl =>
      left
      have : some key = some k' := hl
      exact (Option.some_inj.mp this).symm
    | inr hr2 => exact Or.inr (hkp.mem_iff.mp hr2)
  | inr hfound =>
    obtain ⟨i, dd, hp, hr, hs'⟩ := hfound
    subst hs'
    cases keep with
    | true =>
      have hk'2 : k' ∈ liveKeys arr := hk'
      exact Or.inr (hkp.mem_iff.mp hk'2)
    | false =>
      obtain ⟨hi_cap, hi_len, hkey_i, hhash_i⟩ := probe_found_facts hwt hitem hp
      have hk'2 : k' ∈ liveKeys (arr.set i { slotAt arr i with data := data }) := hk'
      cases liveKeys_set_sub hk'2 with
      | inl hl =>
        left
        have h3 : (slotAt arr i).key = some k' := hl
        rw [hkey_i, Option.some_inj] at h3
        exact h3.symm
      | inr hr2 => exact Or.inr (hkp.mem_iff.mp hr2)

/-- Inserting a key that is not live creates exactly one fresh slot holding
the (copy-callback-processed) data, and leaves every other live slot
intact. -/
theorem insert_new_spec {V : Type} {s s' : Hmap V} {key : String} {data : Option V}
    {keep : Bool} {r : Option V} (hw : WFI s)
    (h : hmap_insert s key data keep = some (s', r))
    (habs : key ∉ liveKeys (s.item.getD [])) :
    HasSlot s' key (applyCopyD s.data_copy data) ∧ r = none ∧ s'.size = s.size + 1 ∧
    (∀ k' v', HasSlot s k' v' → HasSlot s' k' v') := by
  obtain ⟨t, hmid, hbr⟩ := insert_branches h
  have hwit : WFI t := insMid_WFI hw hmid
  obtain ⟨hwt, hlf, hkh, hdc, hdf, hds, hsz, hcaple, hbound, ⟨arr, hitem⟩, hperm⟩ :=
    insMid_spec hw.toWF hmid
  have hgetD : t.item.getD [] = arr := by rw [hitem]; rfl
  rw [hgetD] at hbr
  have hperm' : (liveList arr).Perm (liveList (s.item.getD [])) := by
    rw [← hgetD]
    exact hperm
  have hkp := liveKeys_perm_of_liveList_perm hperm'
  cases hbr with
  | inr hfound =>
    obtain ⟨i, dd, hp, hr, hs'⟩ := hfound
    obtain ⟨hi_cap, hi_len, hkey_i, hhash_i⟩ := probe_found_facts hwt hitem hp
    exfalso
    apply habs
    apply hkp.mem_iff.mp
    exact keyLive_iff.mpr ⟨i, hi_len, hkey_i⟩
  | inl hemp =>
    obtain ⟨i, dd, hp, hr, hs'⟩ := hemp
    obtain ⟨hi_cap, hi_len, hdd_cap, hempty, hwd, hieq, hprev⟩ :=
      probe_empty_facts hwt hitem hp
    subst hs'
    refine ⟨?_, hr, ?_, ?_⟩
    · refine ⟨arr.set i (x__hmap_item_create t key data (t.key_hash key)), i, rfl,
        by rw [List.length_set]; exact hi_len, ?_⟩
      rw [slotAt_set_self hi_len]
      unfold x__hmap_item_create applyCopy
      rw [hdc, hkh]
    · show t.size + 1 = s.size + 1
      rw [hsz]
    · intro k' v' hhs
      obtain ⟨arrs, j, hsitem, hjlen, hjslot⟩ := hhs
      have hgs : s.item.getD [] = arrs := by rw [hsitem]; rfl
      have hocc : ((⟨some k', v', s.key_hash k'⟩ : HmapItem V)).key.isSome := rfl
      have hmem_s : (⟨some k', v', s.key_hash k'⟩ : HmapItem V) ∈ liveList arrs :=
        (mem_liveList_iff hocc).mpr ⟨j, hjlen, hjslot⟩
      have hmem_t : (⟨some k', v', s.key_hash k'⟩ : HmapItem V) ∈ liveList arr := by
        apply hperm'.mem_iff.mpr
        rw [hgs]
        exact hmem_s
      obtain ⟨j2, hj2len, hj2slot⟩ := (mem_liveList_iff hocc).mp hmem_t
      have hne : i ≠ j2 := by
        intro hcon
        subst hcon
        rw [hj2slot] at hempty
        cases hempty
      refine ⟨arr.set i (x__hmap_item_create t key data (t.key_hash key)), j2, rfl,
        by rw [List.length_set]; exact hj2len, ?_⟩
      rw [slotAt_set_ne hne, hj2slot]
      show (⟨some k', v', s.key_hash k'⟩ : HmapItem V) = ⟨some k', v', t.key_hash k'⟩
      rw [hkh]

/-- Inserting an already-present key (insert-only history): size does not
change, the previous value is returned, and the stored value is replaced
exactly when `keep` is false. -/
theorem insert_dup_spec {V : Type} {s s' : Hmap V} {key : String} {data : Option V}
    {keep : Bool} {r : Option V} (hw : WFI s)
    (h : hmap_insert s key data keep = some (s', r))
    (hlive : key ∈ liveKeys (s.item.getD [])) :
    s'.size = s.size ∧ r = hmap_find s key ∧
    hmap_find s' key = (if keep then r else data) := by
  obtain ⟨t, hmid, hbr⟩ := insert_branches h
  have hwit : WFI t := insMid_WFI hw hmid
  obtain ⟨hwt, hlf, hkh, hdc, hdf, hds, hsz, hcaple, hbound, ⟨arr, hitem⟩, hperm⟩ :=
    insMid_spec hw.toWF hmid
  have hgetD : t.item.getD [] = arr := by rw [hitem]; rfl
  rw [hgetD] at hbr
  have hperm' : (liveList arr).Perm (liveList (s.item.getD [])) := by
    rw [← hgetD]
    exact hperm
  have hkp := liveKeys_perm_of_liveList_perm hperm'
  have hklive_t : key ∈ liveKeys arr := hkp.mem_iff.mpr hlive
  have hwi' : WFI s' := WFI_insert hw h
  cases hbr with
  | inl hemp =>
    obtain ⟨i, dd, hp, _, _⟩ := hemp
    exact absurd hklive_t (not_live_of_probe_empty hwit hitem hp)
  | inr hfound =>
    obtain ⟨i, dd, hp, hr, hs'⟩ := hfound
    obtain ⟨hi_cap, hi_len, hkey_i, hhash_i⟩ := probe_found_facts hwt hitem hp
    cases hsitem : s.item with
    | none =>
      rw [hsitem] at hlive
      cases hlive
    | some arrs =>
      have hgs : s.item.getD [] = arrs := by rw [hsitem]; rfl
      rw [hgs] at hlive hperm'
      obtain ⟨js, hjs_len, hkjs⟩ := keyLive_iff.mp hlive
      have hnds : (liveKeys arrs).Nodup := hw.nodup arrs hsitem
      have hjs_cap : js < s.capacity := by rw [← hw.len_eq arrs hsitem]; exact hjs_len
      have hfind_s : hmap_find s key = (slotAt arrs js).data :=
        find_some_of_slot hw.toWF hsitem hnds hjs_cap hkjs
      have hmem_t : slotAt arr i ∈ liveList arr :=
        List.mem_filter.mpr ⟨slotAt_mem hi_len, by rw [hkey_i]; rfl⟩
      have hmem_s : slotAt arr i ∈ liveList arrs := hperm'.mem_iff.mp hmem_t
      have hmem_s2 : slotAt arrs js ∈ liveList arrs :=
        List.mem_filter.mpr ⟨slotAt_mem hjs_len, by rw [hkjs]; rfl⟩
      have hnds2 : ((liveList arrs).filterMap (·.key)).Nodup := by
        rw [← liveKeys_eq_filterMap_liveList]
        exact hnds
      have hitems_eq : slotAt arr i = slotAt arrs js :=
        item_of_key_unique (liveList arrs) hnds2 hmem_s hmem_s2 hkey_i hkjs
      have hr_eq : r = hmap_find s key := by
        rw [hr, hfind_s, hitems_eq]
      cases keep with
      | true =>
        have hteq : s' = t := by
          rw [hs', if_pos rfl, ← hitem]
        subst hteq
        have hfind_t : hmap_find s' key = (slotAt arr i).data :=
          find_some_of_slot hwt hitem (hwit.nodup arr hitem) hi_cap hkey_i
        refine ⟨hsz, hr_eq, ?_⟩
        rw [if_pos rfl, hfind_t, hr]
      | false =>
        have hs'' : s' = { t with
            item := some (arr.set i { slotAt arr i with data := data }) } := by
          rw [hs', if_neg (by simp)]
        subst hs''
        have hsetlen : i < (arr.set i { slotAt arr i with data := data }).length := by
          rw [List.length_set]
          exact hi_len
        have hkey_set : (slotAt (arr.set i { slotAt arr i with data := data }) i).key
            = some key := by
          rw [slotAt_set_self hi_len]
          exact hkey_i
        have hnd' : (liveKeys (arr.set i { slotAt arr i with data := data })).Nodup :=
          hwi'.nodup _ rfl
        have hfind' := find_some_of_slot hwi'.toWF rfl hnd' (show i < t.capacity from hi_cap)
          hkey_set
        refine ⟨hsz, hr_eq, ?_⟩
        rw [if_neg (by simp), hfind']
        rw [slotAt_set_self hi_len]

/-! ### Creation and run-level invariants -/

theorem WF_create {V : Type} (hint ds : Nat) {lf : ℚ} (h0 : 0 < lf) (h1 : lf < 1)
    (kh : String → Nat) (dc : Option (V → V)) (df : Bool) :
    WF (hmap_create_full V hint ds lf kh dc df) := by
  refine ⟨h0, h1, grownCapacity_pos _ _, grownCapacity_pos _ _, ?_, fun _ => rfl,
    ?_, ?_, ?_, ?_⟩
  · show ((0 : Nat) : ℚ) ≤ (grownCapacity hint lf : ℚ) * lf
    push_cast
    exact mul_nonneg (by positivity) (le_of_lt h0)
  all_goals intro arr harr; cases harr

theorem WFI_create {V : Type} (hint ds : Nat) {lf : ℚ} (h0 : 0 < lf) (h1 : lf < 1)
    (kh : String → Nat) (dc : Option (V → V)) (df : Bool) :
    WFI (hmap_create_full V hint ds lf kh dc df) := by
  refine ⟨WF_create hint ds h0 h1 kh dc df, ?_, ?_⟩
  all_goals intro arr harr; cases harr

theorem WF_step {V : Type} {s t : Hmap V} {op : Op V} (hw : WF s)
    (h : hmap_step s op = some t) :
    WF t ∧ s.capacity ≤ t.capacity ∧ t.load_factor = s.load_factor ∧
    t.key_hash = s.key_hash ∧ t.data_copy = s.data_copy ∧ t.data_free = s.data_free ∧
    t.data_size = s.data_size := by
  cases op with
  | ins k v keep =>
    have h1 : Option.map Prod.fst (hmap_insert s k v keep) = some t := h
    cases hins : hmap_insert s k v keep with
    | none =>
      rw [hins] at h1
      cases h1
    | some pr =>
      rw [hins] at h1
      obtain ⟨s2, r⟩ := pr
      have ht : s2 = t := Option.some_inj.mp h1
      subst ht
      exact WF_insert hw hins
  | del k =>
    have h1 : some (hmap_remove s k).1 = some t := h
    have ht : (hmap_remove s k).1 = t := Option.some_inj.mp h1
    subst ht
    obtain ⟨hwf, hcap, hlf, hkh, hdc, hdf, hds⟩ := WF_remove hw k
    exact ⟨hwf, le_of_eq hcap.symm, hlf, hkh, hdc, hdf, hds⟩

theorem WF_run {V : Type} :
    ∀ (ops : List (Op V)) (s t : Hmap V), WF s → hmap_run s ops = some t →
    WF t ∧ s.capacity ≤ t.capacity ∧ t.load_factor = s.load_factor ∧
    t.key_hash = s.key_hash ∧ t.data_copy = s.data_copy ∧ t.data_free = s.data_free ∧
    t.data_size = s.data_size := by
  intro ops
  induction ops with
  | nil =>
    intro s t hw h
    rw [hmap_run, Option.some_inj] at h
    subst h
    exact ⟨hw, le_refl _, rfl, rfl, rfl, rfl, rfl⟩
  | cons op ops ih =>
    intro s t hw h
    rw [hmap_run] at h
    cases hstep : hmap_step s op with
    | none => rw [hstep] at h; cases h
    | some u =>
      rw [hstep] at h
      have h2 : hmap_run u ops = some t := h
      obtain ⟨hwu, hcapu, hlfu, hkhu, hdcu, hdfu, hdsu⟩ := WF_step hw hstep
      obtain ⟨hwt, hcapt, hlft, hkht, hdct, hdft, hdst⟩ := ih u t hwu h2
      exact ⟨hwt, le_trans hcapu hcapt, by rw [hlft, hlfu], by rw [hkht, hkhu],
        by rw [hdct, hdcu], by rw [hdft, hdfu], by rw [hdst, hdsu]⟩

theorem insRun_cons {V : Type} (s : Hmap V) (x : String × Option V × Bool)
    (l : List (String × Option V × Bool)) :
    insRun s (x :: l) = match hmap_insert s x.1 x.2.1 x.2.2 with
      | none => none
      | some (u, _) => insRun u l := by
  unfold insRun
  rw [List.map_cons, hmap_run]
  have hstep : hmap_step s (Op.ins x.1 x.2.1 x.2.2)
      = Option.map Prod.fst (hmap_insert s x.1 x.2.1 x.2.2) := rfl
  rw [hstep]
  cases h : hmap_insert s x.1 x.2.1 x.2.2 with
  | none => rfl
  | some pr =>
    obtain ⟨u, r⟩ := pr
    rfl

theorem find_of_hasSlot {V : Type} {s : Hmap V} (hw : WFI s) {k : String} {v : Option V}
    (hh : HasSlot s k v) : hmap_find s k = v := by
  obtain ⟨arr, i, hitem, hilen, hslot⟩ := hh
  have hcap : i < s.capacity := by rw [← hw.len_eq arr hitem]; exact hilen
  have hk : (slotAt arr i).key = some k := by rw [hslot]
  have hf := find_some_of_slot hw.toWF hitem (hw.nodup arr hitem) hcap hk
  rw [hf, hslot]

/-- Main induction for insert-only runs with pairwise-distinct fresh keys:
the final container is well formed and holds, for every inserted pair, a
live slot with the copy-processed data. -/
theorem insRun_spec {V : Type} :
    ∀ (l : List (String × Option V × Bool)) (s t : Hmap V), WFI s →
    insRun s l = some t →
    (l.map (fun x => x.1)).Nodup →
    (∀ x ∈ l, x.1 ∉ liveKeys (s.item.getD [])) →
    WFI t ∧ t.key_hash = s.key_hash ∧
    (∀ k v, HasSlot s k v → HasSlot t k v) ∧
    (∀ x ∈ l, HasSlot t x.1 (applyCopyD s.data_copy x.2.1)) := by
  intro l
  induction l with
  | nil =>
    intro s t hw h _ _
    have h2 : some s = some t := h
    rw [Option.some_inj] at h2
    subst h2
    exact ⟨hw, rfl, fun _ _ hh => hh, by intro x hx; cases hx⟩
  | cons x l ih =>
    intro s t hw h hnd hdisj
    rw [insRun_cons] at h
    cases hins : hmap_insert s x.1 x.2.1 x.2.2 with
    | none => rw [hins] at h; cases h
    | some pr =>
      rw [hins] at h
      obtain ⟨u, r⟩ := pr
      have h2 : insRun u l = some t := h
      have hwud : WFI u := WFI_insert hw hins
      obtain ⟨hwf_u, _, hlf_u, hkh_u, hdc_u, _, _⟩ := WF_insert hw.toWF hins
      obtain ⟨hnew, hrnone, hszu, hpres⟩ :=
        insert_new_spec hw hins (hdisj x (List.mem_cons_self x l))
      have hdisj2 : ∀ y ∈ l, y.1 ∉ liveKeys (u.item.getD []) := by
        intro y hy hcon
        cases insert_liveKeys_sub hw.toWF hins y.1 hcon with
        | inl heq =>
          rw [List.map_cons] at hnd
          apply (List.nodup_cons.mp hnd).1
          rw [← heq]
          exact List.mem_map_of_mem _ hy
        | inr hmem => exact hdisj y (List.mem_cons_of_mem _ hy) hmem
      have hnd2 : (l.map (fun x => x.1)).Nodup := by
        rw [List.map_cons] at hnd
        exact (List.nodup_cons.mp hnd).2
      obtain ⟨hwt, hkh_t, hpres_t, hall_t⟩ := ih u t hwud h2 hnd2 hdisj2
      refine ⟨hwt, by rw [hkh_t, hkh_u], ?_, ?_⟩
      · intro k v hh
        exact hpres_t k v (hpres k v hh)
      · intro y hy
        rcases List.mem_cons.mp hy with rfl | hy2
        · exact hpres_t _ _ hnew
        · have h3 := hall_t y hy2
          rw [hdc_u] at h3
          exact h3

/-! ### The lookup scan bound -/

theorem scanLoop_some_dist_lt {V : Type} {arr : List (HmapItem V)} {cap hash : Nat}
    {key : String} :
    ∀ fuel i dist j d, scanLoop arr cap hash key fuel i dist = some (j, d) →
    d < dist + fuel := by
  intro fuel
  induction fuel with
  | zero => intro i dist j d h; exact absurd h (by simp [scanLoop])
  | succ fuel ih =>
    intro i dist j d h
    rw [scanLoop] at h
    by_cases hm : (slotAt arr i).key = some key ∧ (slotAt arr i).hash = hash
    · rw [if_pos hm] at h
      simp only [Option.some_inj, Prod.mk.injEq] at h
      omega
    · rw [if_neg hm] at h
      have := ih _ _ _ _ h
      omega

/-- The `hmap_find` loop never inspects more than `max_dist + 1` slots. -/
theorem findInspected_le {V : Type} (s : Hmap V) (k : String) :
    hmap_findInspected s k ≤ s.max_dist + 1 := by
  unfold hmap_findInspected
  by_cases hsz : s.size = 0
  · rw [if_pos hsz]
    omega
  · rw [if_neg hsz]
    cases hscan : scanLoop (s.item.getD []) s.capacity (s.key_hash k) k (s.max_dist + 1)
        (s.key_hash k % s.capacity) 0 with
    | none => exact le_refl _
    | some pr =>
      obtain ⟨j, d⟩ := pr
      show d + 1 ≤ s.max_dist + 1
      have := scanLoop_some_dist_lt _ _ _ _ _ hscan
      omega

/-! ### The copy loop and its `keep` flag -/

theorem foldl_copyStep_none {V : Type} :
    ∀ (l : List (HmapItem V)), List.foldl copyStep none l = none := by
  intro l
  induction l with
  | nil => rfl
  | cons a l ih => rw [List.foldl_cons]; exact ih

theorem foldl_copyStepKeep_none {V : Type} :
    ∀ (l : List (HmapItem V)), List.foldl copyStepKeep none l = none := by
  intro l
  induction l with
  | nil => rfl
  | cons a l ih => rw [List.foldl_cons]; exact ih

/-- Inserting a key that is not live never reaches the `keep` branch, so
the flag is irrelevant. -/
theorem insert_keep_irrel {V : Type} {s : Hmap V} {key : String} {data : Option V}
    (hw : WF s) (habs : key ∉ liveKeys (s.item.getD [])) (keep keep' : Bool) :
    hmap_insert s key data keep = hmap_insert s key data keep' := by
  unfold hmap_insert
  cases hmid : insMid s with
  | none => rfl
  | some t =>
    obtain ⟨hwt, hlf, hkh, hdc, hdf, hds, hsz, hcaple, hbound, ⟨arr, hitem⟩, hperm⟩ :=
      insMid_spec hw hmid
    have hgetD : t.item.getD [] = arr := by rw [hitem]; rfl
    show x__insert_probe t key data keep = x__insert_probe t key data keep'
    unfold x__insert_probe
    rw [hgetD]
    cases hp : probeLoop arr t.capacity (t.key_hash key) key t.capacity
        (t.key_hash key % t.capacity) 0 with
    | none => rfl
    | some res =>
      cases res with
      | empty i dd => rfl
      | found i dd =>
        exfalso
        obtain ⟨hi_cap, hi_len, hkey_i, _⟩ := probe_found_facts hwt hitem hp
        have hperm2 : (liveList arr).Perm (liveList (s.item.getD [])) := by
          rw [← hgetD]
          exact hperm
        have hkp := liveKeys_perm_of_liveList_perm hperm2
        exact habs (hkp.mem_iff.mp (keyLive_iff.mpr ⟨i, hi_len, hkey_i⟩))

/-- As long as the items folded over have fresh, pairwise-distinct keys,
the copy loop is insensitive to the `keep` flag. -/
theorem copy_fold_keep_eq {V : Type} :
    ∀ (l : List (HmapItem V)) (c : Hmap V), WF c →
    (∀ k ∈ l.filterMap (·.key), k ∉ liveKeys (c.item.getD [])) →
    (l.filterMap (·.key)).Nodup →
    List.foldl copyStep (some c) l = List.foldl copyStepKeep (some c) l := by
  intro l
  induction l with
  | nil => intro c _ _ _; rfl
  | cons it l ih =>
    intro c hw hdisj hnd
    rw [List.foldl_cons, List.foldl_cons]
    cases hk : it.key with
    | none =>
      rw [List.filterMap_cons, hk] at hdisj hnd
      have e1 : copyStep (some c) it = some c := by unfold copyStep; rw [hk]
      have e2 : copyStepKeep (some c) it = some c := by unfold copyStepKeep; rw [hk]
      rw [e1, e2]
      exact ih c hw hdisj hnd
    | some k =>
      rw [List.filterMap_cons, hk] at hdisj hnd
      have habs : k ∉ liveKeys (c.item.getD []) := hdisj k (List.mem_cons_self _ _)
      have e1 : copyStep (some c) it = (hmap_insert c k it.data false).map Prod.fst := by
        unfold copyStep
        rw [hk]
      have e2 : copyStepKeep (some c) it = (hmap_insert c k it.data true).map Prod.fst := by
        unfold copyStepKeep
        rw [hk]
      rw [e1, e2, insert_keep_irrel hw habs false true]
      cases hins : hmap_insert c k it.data true with
      | none =>
        show List.foldl copyStep none l = List.foldl copyStepKeep none l
        rw [foldl_copyStep_none, foldl_copyStepKeep_none]
      | some pr =>
        obtain ⟨c2, r⟩ := pr
        show List.foldl copyStep (some c2) l = List.foldl copyStepKeep (some c2) l
        apply ih c2 (WF_insert hw hins).1 ?_ (List.nodup_cons.mp hnd).2
        intro k2 hk2 hcon
        cases insert_liveKeys_sub hw hins k2 hcon with
        | inl heq =>
          subst heq
          exact (List.nodup_cons.mp hnd).1 hk2
        | inr hmem => exact hdisj k2 (List.mem_cons_of_mem _ hk2) hmem

/-! ### Concrete fixtures for the claim witnesses and counterexamples -/

/-- The default keyed table of the concrete scenarios: capacity hint 2,
load factor 0.75, FNV-1a hash, `memcpy` copy. -/
def w0 : Hmap Nat := hmap_create Nat 2 0

/-- State and returned value after inserting `("a", 1)` into `w0`. -/
def w1p : Hmap Nat × Option Nat :=
  (hmap_insert w0 "a" (some 1) false).getD (hmap_zero Nat, none)

/-- State and returned value after a second insert of the live key `"a"`. -/
def w2p : Hmap Nat × Option Nat :=
  (hmap_insert w1p.1 "a" (some 2) false).getD (hmap_zero Nat, none)

/-- State after `insert a, insert b, remove a`: the removal punches a hole
into `b`'s probe path. -/
def w3 : Hmap Nat :=
  (hmap_run w0 [Op.ins "a" (some 1) false, Op.ins "b" (some 2) false,
    Op.del "a"]).getD (hmap_zero Nat)

/-- State after re-inserting the still-live key `"b"` into `w3`: it holds
two live slots for `"b"`. -/
def w4 : Hmap Nat :=
  (hmap_run w0 [Op.ins "a" (some 1) false, Op.ins "b" (some 2) false,
    Op.del "a", Op.ins "b" (some 3) false]).getD (hmap_zero Nat)

/-- The copy of the duplicate-key state `w4` as the code makes it. -/
def w4c : Hmap Nat := (hmap_copy w4).getD (hmap_zero Nat)

/-- The copy of `w4` as the spec describes it (`keep_existing = true`). -/
def w4k : Hmap Nat := (hmap_copyKeepTrue w4).getD (hmap_zero Nat)

/-- A table configured with the non-trivial copy callback `Nat.succ`, so
that a deep-copied value is distinguishable from the caller's raw value. -/
def s6 : Hmap Nat := hmap_create_full Nat 2 0 (mkRat 3 4) strhash_fnv1a (some Nat.succ) true

/-- State and returned value after inserting `("a", 1)` into `s6`. -/
def w6p : Hmap Nat × Option Nat :=
  (hmap_insert s6 "a" (some 1) false).getD (hmap_zero Nat, none)

/-- State and returned value after overwriting `"a"` with the raw value 10. -/
def w6q : Hmap Nat × Option Nat :=
  (hmap_insert w6p.1 "a" (some 10) false).getD (hmap_zero Nat, none)

/-- State after inserting `a, b, c` into `w0` (the third insert grows the
table from 3 to 5 slots). -/
def w9a : Hmap Nat :=
  (hmap_run w0 [Op.ins "a" (some 1) false, Op.ins "b" (some 2) false,
    Op.ins "c" (some 3) false]).getD (hmap_zero Nat)

/-- `w9a` after removing `"b"`. -/
def w9b : Hmap Nat :=
  (hmap_run w0 [Op.ins "a" (some 1) false, Op.ins "b" (some 2) false,
    Op.ins "c" (some 3) false, Op.del "b"]).getD (hmap_zero Nat)

/-- State after inserting `a, b` into `w0`: size 2, capacity 3, so the
next insert triggers the growth check. -/
def w12 : Hmap Nat :=
  (hmap_run w0 [Op.ins "a" (some 1) false,
    Op.ins "b" (some 2) false]).getD (hmap_zero Nat)

/-- State and returned value of a duplicate insert into `w12`: the growth
check fires before duplicate detection. -/
def w10p : Hmap Nat × Option Nat :=
  (hmap_insert w12 "a" (some 9) false).getD (hmap_zero Nat, none)

/-- The copy loop preserves well-formedness and the configuration fields,
and only grows capacity. -/
theorem copy_fold_config {V : Type} :
    ∀ (l : List (HmapItem V)) (c res : Hmap V), WF c →
    List.foldl copyStep (some c) l = some res →
    WF res ∧ res.load_factor = c.load_factor ∧ res.key_hash = c.key_hash ∧
    res.data_copy = c.data_copy ∧ res.data_free = c.data_free ∧
    res.data_size = c.data_size ∧ c.capacity ≤ res.capacity := by
  intro l
  induction l with
  | nil =>
    intro c res hw h
    have h2 : some c = some res := h
    rw [Option.some_inj] at h2
    subst h2
    exact ⟨hw, rfl, rfl, rfl, rfl, rfl, le_refl _⟩
  | cons it l ih =>
    intro c res hw h
    rw [List.foldl_cons] at h
    cases hk : it.key with
    | none =>
      have e1 : copyStep (some c) it = some c := by unfold copyStep; rw [hk]
      rw [e1] at h
      exact ih c res hw h
    | some k =>
      have e1 : copyStep (some c) it = (hmap_insert c k it.data false).map Prod.fst := by
        unfold copyStep
        rw [hk]
      rw [e1] at h
      cases hins : hmap_insert c k it.data false with
      | none =>
        rw [hins] at h
        have h2 : List.foldl copyStep none l = some res := h
        rw [foldl_copyStep_none] at h2
        cases h2
      | some pr =>
        obtain ⟨c2, r⟩ := pr
        rw [hins] at h
        have h2 : List.foldl copyStep (some c2) l = some res := h
        obtain ⟨hwc2, hcap2, hlf2, hkh2, hdc2, hdf2, hds2⟩ := WF_insert hw hins
        obtain ⟨hwr, hlfr, hkhr, hdcr, hdfr, hdsr, hcapr⟩ := ih c2 res hwc2 h2
        exact ⟨hwr, by rw [hlfr, hlf2], by rw [hkhr, hkh2], by rw [hdcr, hdc2],
          by rw [hdfr, hdf2], by rw [hdsr, hds2], le_trans hcap2 hcapr⟩

/-! ### Small helpers for the claim layer -/

theorem lf34_pos : (0 : ℚ) < mkRat 3 4 := by
  rw [Rat.mkRat_eq_div]
  norm_num

theorem lf34_lt_one : mkRat 3 4 < 1 := by
  rw [Rat.mkRat_eq_div]
  norm_num

theorem applyCopyD_id {V : Type} (v : Option V) : applyCopyD (some id) v = v := by
  cases v <;> rfl

/-! ## The claims -/

/-- C1: for every sequence of inserts with pairwise-distinct keys into a
keyed table whose copy callback preserves contents (the default `memcpy`
does), and for every key `k` inserted with value `v` in that sequence,
`hmap_find` on `k` returns a value equal to `v`. -/
theorem C1_round_trip {V : Type} (hint ds : Nat) {lf : ℚ} (h0 : 0 < lf) (h1 : lf < 1)
    (kh : String → Nat) (dc : Option (V → V)) (df : Bool)
    (hdc : ∀ v, applyCopyD dc v = v)
    (l : List (String × Option V × Bool)) (t : Hmap V)
    (hrun : insRun (hmap_create_full V hint ds lf kh dc df) l = some t)
    (hnd : (l.map (fun x => x.1)).Nodup)
    (k : String) (v : Option V) (keep : Bool) (hmem : (k, v, keep) ∈ l) :
    hmap_find t k = v := by
  obtain ⟨hwt, _, _, hall⟩ := insRun_spec l _ t (WFI_create hint ds h0 h1 kh dc df) hrun hnd
    (fun x hx hcon => absurd (hcon : x.1 ∈ ([] : List String)) (List.not_mem_nil x.1))
  have hh := hall (k, v, keep) hmem
  rw [find_of_hasSlot hwt hh]
  exact hdc v

theorem C1_round_trip_witness :
    hmap_find ((insRun w0 [("a", some 1, false), ("b", some 2, false)]).getD
      (hmap_zero Nat)) "b" = some 2 :=
  C1_round_trip 2 0 lf34_pos lf34_lt_one strhash_fnv1a (some id) true applyCopyD_id
    [("a", some 1, false), ("b", some 2, false)]
    ((insRun w0 [("a", some 1, false), ("b", some 2, false)]).getD (hmap_zero Nat))
    (by exact rfl) (by decide) "b" (some 2) false (by decide)

/-- C2: in every container state reachable by any sequence of insert and
remove operations (resize happens inside insert), every live entry resides
within `max_dist` forward wrapping steps of its ideal slot
`hash % capacity`, and the `hmap_find` loop inspects at most
`max_dist + 1` slots. -/
theorem C2_bounded_displacement {V : Type} (hint ds : Nat) {lf : ℚ} (h0 : 0 < lf)
    (h1 : lf < 1) (kh : String → Nat) (dc : Option (V → V)) (df : Bool)
    (ops : List (Op V)) (t : Hmap V)
    (hrun : hmap_run (hmap_create_full V hint ds lf kh dc df) ops = some t) :
    (∀ arr, t.item = some arr → ∀ i, i < t.capacity → (slotAt arr i).key.isSome →
      wdist t.capacity ((slotAt arr i).hash % t.capacity) i ≤ t.max_dist) ∧
    (∀ k, hmap_findInspected t k ≤ t.max_dist + 1) := by
  have hwt := (WF_run ops _ t (WF_create hint ds h0 h1 kh dc df) hrun).1
  exact ⟨hwt.disp_le, fun k => findInspected_le t k⟩

theorem C2_bounded_displacement_witness :
    (∀ arr, w9a.item = some arr → ∀ i, i < w9a.capacity → (slotAt arr i).key.isSome →
      wdist w9a.capacity ((slotAt arr i).hash % w9a.capacity) i ≤ w9a.max_dist) ∧
    (∀ k, hmap_findInspected w9a k ≤ w9a.max_dist + 1) :=
  C2_bounded_displacement 2 0 lf34_pos lf34_lt_one strhash_fnv1a (some id) true
    [Op.ins "a" (some 1) false, Op.ins "b" (some 2) false, Op.ins "c" (some 3) false]
    w9a (by exact rfl)

/-- C7: for every sequence of inserts into a freshly created container,
`size ≤ capacity * load_factor` holds after each `hmap_insert` returns
(every intermediate state is itself the result of a run, so quantifying
over all runs covers every prefix). -/
theorem C7_growth_invariant {V : Type} (hint ds : Nat) {lf : ℚ} (h0 : 0 < lf)
    (h1 : lf < 1) (kh : String → Nat) (dc : Option (V → V)) (df : Bool)
    (l : List (String × Option V × Bool)) (t : Hmap V)
    (hrun : insRun (hmap_create_full V hint ds lf kh dc df) l = some t) :
    (t.size : ℚ) ≤ (t.capacity : ℚ) * t.load_factor := by
  have hrun2 : hmap_run (hmap_create_full V hint ds lf kh dc df)
      (l.map fun x => Op.ins x.1 x.2.1 x.2.2) = some t := hrun
  exact (WF_run _ _ t (WF_create hint ds h0 h1 kh dc df) hrun2).1.size_le

theorem C7_growth_invariant_witness :
    ((w9a.size : ℚ) ≤ (w9a.capacity : ℚ) * w9a.load_factor) :=
  C7_growth_invariant 2 0 lf34_pos lf34_lt_one strhash_fnv1a (some id) true
    [("a", some 1, false), ("b", some 2, false), ("c", some 3, false)] w9a (by exact rfl)

/-- C9: the concrete scenario of the spec.  Capacity hint 2, load factor
0.75, FNV-1a hash; after inserting `("a",1)`, `("b",2)`, `("c",3)`:
size 3, `find "b" = 2`, `find "z"` absent; after removing `"b"`: size 2,
`find "b"` absent, and the displaced entries `"a"` and `"c"` remain
findable. -/
theorem C9_concrete_scenario :
    hmap_run (hmap_create Nat 2 0) [Op.ins "a" (some 1) false, Op.ins "b" (some 2) false,
      Op.ins "c" (some 3) false] = some w9a ∧
    w9a.size = 3 ∧ hmap_find w9a "b" = some 2 ∧ hmap_find w9a "z" = none ∧
    hmap_run (hmap_create Nat 2 0) [Op.ins "a" (some 1) false, Op.ins "b" (some 2) false,
      Op.ins "c" (some 3) false, Op.del "b"] = some w9b ∧
    w9b.size = 2 ∧ hmap_find w9b "b" = none ∧ hmap_find w9b "a" = some 1 ∧
    hmap_find w9b "c" = some 3 :=
  ⟨by exact rfl, by exact rfl, by decide, by decide, by exact rfl, by exact rfl,
    by decide, by decide, by decide⟩

/-- C3 (amended): in a container reachable by inserts only (invariant
`WFI`), live keys stay pairwise distinct after a further insert, and a
second insert of a live key keeps `size`, returns the previously stored
value and replaces it exactly when `keep` is false.  The original claim —
the same uniqueness after *any* sequence of operations — is false: a
removal punches a hole into a probe path, after which re-inserting a
still-live key creates a second live slot for it (`C3_counterexample`). -/
theorem C3_unique_keys {V : Type} {s s' : Hmap V} {key : String} {data : Option V}
    {keep : Bool} {r : Option V} (hw : WFI s)
    (h : hmap_insert s key data keep = some (s', r)) :
    (∀ arr, s'.item = some arr → (liveKeys arr).Nodup) ∧
    (keyLive s key → s'.size = s.size ∧ r = hmap_find s key ∧
      hmap_find s' key = (if keep then r else data)) :=
  ⟨(WFI_insert hw h).nodup, fun hlive => insert_dup_spec hw h hlive⟩

theorem C3_unique_keys_witness :
    (∀ arr, w2p.1.item = some arr → (liveKeys arr).Nodup) ∧
    (keyLive w1p.1 "a" → w2p.1.size = w1p.1.size ∧ w2p.2 = hmap_find w1p.1 "a" ∧
      hmap_find w2p.1 "a" = some 2) :=
  C3_unique_keys
    (WFI_insert (WFI_create 2 0 lf34_pos lf34_lt_one strhash_fnv1a (some id) true)
      (by exact rfl : hmap_insert w0 "a" (some 1) false = some (w1p.1, w1p.2)))
    (by exact rfl : hmap_insert w1p.1 "a" (some 2) false = some (w2p.1, w2p.2))

/-- C3 counterexample: after `insert a, insert b, remove a` the key `"b"`
is still live with `size = 1`; re-inserting `"b"` lands in the hole left
by the removal, bumping `size` to 2 and leaving two live slots for
`"b"`. -/
theorem C3_counterexample :
    hmap_run w0 [Op.ins "a" (some 1) false, Op.ins "b" (some 2) false, Op.del "a"]
      = some w3 ∧
    w3.size = 1 ∧ keyLive w3 "b" ∧
    hmap_run w3 [Op.ins "b" (some 3) false] = some w4 ∧
    w4.size = 2 ∧ countKey w4 "b" = 2 :=
  ⟨by exact rfl, by exact rfl, by decide, by exact rfl, by exact rfl, by decide⟩

/-- C8: in a well-formed container, `hmap_find` and `hmap_remove` on an
absent key return the NULL sentinel and leave the container untouched;
`hmap_remove` on a live key clears the matched slot in place (no
tombstone), decrements `size` and hands the stored data back to the
caller — the embedding of `hmap_remove` never consults the free
callback, mirroring the source. -/
theorem C8_absent_and_remove {V : Type} {s : Hmap V} (hw : WF s) (k : String) :
    (¬ keyLive s k → hmap_find s k = none ∧ hmap_remove s k = (s, none)) ∧
    (keyLive s k → ∃ arr i, s.item = some arr ∧ i < arr.length ∧
      (slotAt arr i).key = some k ∧ 0 < s.size ∧
      hmap_remove s k
        = ({ s with item := some (arr.set i (emptyItem V)), size := s.size - 1 },
          (slotAt arr i).data)) :=
  ⟨fun habs => ⟨find_none_of_not_live habs, remove_none_of_not_live habs⟩,
    fun hlive => remove_present hw hlive⟩

theorem C8_absent_and_remove_witness :
    (¬ keyLive w12 "a" → hmap_find w12 "a" = none ∧ hmap_remove w12 "a" = (w12, none)) ∧
    (keyLive w12 "a" → ∃ arr i, w12.item = some arr ∧ i < arr.length ∧
      (slotAt arr i).key = some "a" ∧ 0 < w12.size ∧
      hmap_remove w12 "a"
        = ({ w12 with item := some (arr.set i (emptyItem Nat)), size := w12.size - 1 },
          (slotAt arr i).data)) :=
  C8_absent_and_remove
    ((WF_run [Op.ins "a" (some 1) false, Op.ins "b" (some 2) false] w0 w12
      (WF_create 2 0 lf34_pos lf34_lt_one strhash_fnv1a (some id) true)
      (by exact rfl)).1) "a"

/-- C10: the growth check of `hmap_insert` runs before duplicate
detection, so inserting a key that is already live while
`size + 1 > capacity * load_factor` resizes anyway: capacity strictly
increases (all entries are rehashed into the larger array) although the
duplicate hit leaves `size` unchanged. -/
theorem C10_dup_insert_resizes {V : Type} {s s' : Hmap V} {key : String}
    {data : Option V} {keep : Bool} {r : Option V} (hw : WFI s)
    (hgrow : growthCond s) (hlive : keyLive s key)
    (h : hmap_insert s key data keep = some (s', r)) :
    s.capacity < s'.capacity ∧ s'.size = s.size := by
  have hsome : s.item ≠ none := by
    intro hnone
    unfold keyLive at hlive
    rw [hnone] at hlive
    have hl2 : key ∈ ([] : List String) := hlive
    cases hl2
  have halloc : insAlloc s = s := by
    unfold insAlloc
    cases hi : s.item with
    | none => exact absurd hi hsome
    | some arr => rfl
  have hgrow2 : growthCond (insAlloc s) := by rw [halloc]; exact hgrow
  have hmid_eq : insMid s = x__hmap_resize_items s := by
    unfold insMid
    rw [if_pos hgrow2, halloc]
  obtain ⟨t, hmid, hbr⟩ := insert_branches h
  rw [hmid_eq] at hmid
  obtain ⟨hwt, hsz_t, hcap_t, hlf, hkh, hdc, hdf, hds, hbound, hperm⟩ := WF_resize hw.toWF hmid
  have hwit : WFI t := WFI_resize hw hmid
  obtain ⟨_, _, _, _, _, _, _, arr, hitem, _, _⟩ := resize_spec hmid
  have hkp := liveKeys_perm_of_liveList_perm hperm
  have hlive_t : key ∈ liveKeys (t.item.getD []) := hkp.mem_iff.mpr hlive
  cases hbr with
  | inl hemp =>
    obtain ⟨i, dd, hp, _, _⟩ := hemp
    exfalso
    have hgetD : t.item.getD [] = arr := by rw [hitem]; rfl
    rw [hgetD] at hp hlive_t
    exact not_live_of_probe_empty hwit hitem hp hlive_t
  | inr hfound =>
    obtain ⟨i, dd, hp, hr, hs'⟩ := hfound
    subst hs'
    exact ⟨hcap_t, hsz_t⟩

theorem C10_dup_insert_resizes_witness :
    w12.capacity < w10p.1.capacity ∧ w10p.1.size = w12.size :=
  C10_dup_insert_resizes
    ((insRun_spec [("a", some 1, false), ("b", some 2, false)] w0 w12
      (WFI_create 2 0 lf34_pos lf34_lt_one strhash_fnv1a (some id) true)
      (by exact rfl) (by decide)
      (fun x hx hcon => absurd (hcon : x.1 ∈ ([] : List String))
        (List.not_mem_nil x.1))).1)
    (by decide) (by decide)
    (by exact rfl : hmap_insert w12 "a" (some 9) false = some (w10p.1, w10p.2))

/-- C4 (amended): `hmap_copy` produces a container with the same load
factor, callbacks and data size, whose capacity starts from the hint
`size` (so it is at least `size / load_factor + 1`); and whenever the
source's live keys are pairwise distinct — the only states insert-only
use can produce — the copy coincides with the spec's
`keep_existing = true` re-insertion.  The original claim is false on
duplicate-key states: the code passes `keep = 0`, so a later slot for the
same key overwrites the earlier one (`C4_counterexample`). -/
theorem C4_copy_spec {V : Type} (s : Hmap V) (h0 : 0 < s.load_factor)
    (h1 : s.load_factor < 1) :
    (∀ c, hmap_copy s = some c →
      c.load_factor = s.load_factor ∧ c.key_hash = s.key_hash ∧
      c.data_copy = s.data_copy ∧ c.data_free = s.data_free ∧
      c.data_size = s.data_size ∧ grownCapacity s.size s.load_factor ≤ c.capacity) ∧
    ((liveKeys (s.item.getD [])).Nodup → hmap_copy s = hmap_copyKeepTrue s) := by
  have hwc : WF (hmap_create_full V s.size s.data_size s.load_factor s.key_hash
      s.data_copy s.data_free) :=
    WF_create s.size s.data_size h0 h1 s.key_hash s.data_copy s.data_free
  constructor
  · intro c hc
    have hc2 : (if s.size = 0
        then some (hmap_create_full V s.size s.data_size s.load_factor s.key_hash
          s.data_copy s.data_free)
        else (s.item.getD []).foldl copyStep
          (some (hmap_create_full V s.size s.data_size s.load_factor s.key_hash
            s.data_copy s.data_free))) = some c := hc
    by_cases hsz : s.size = 0
    · rw [if_pos hsz, Option.some_inj] at hc2
      subst hc2
      exact ⟨rfl, rfl, rfl, rfl, rfl, le_refl _⟩
    · rw [if_neg hsz] at hc2
      obtain ⟨_, hlf, hkh, hdc, hdf, hds, hcap⟩ := copy_fold_config _ _ _ hwc hc2
      exact ⟨hlf, hkh, hdc, hdf, hds, hcap⟩
  · intro hnd
    have e1 : hmap_copy s = (if s.size = 0
        then some (hmap_create_full V s.size s.data_size s.load_factor s.key_hash
          s.data_copy s.data_free)
        else (s.item.getD []).foldl copyStep
          (some (hmap_create_full V s.size s.data_size s.load_factor s.key_hash
            s.data_copy s.data_free))) := rfl
    have e2 : hmap_copyKeepTrue s = (if s.size = 0
        then some (hmap_create_full V s.size s.data_size s.load_factor s.key_hash
          s.data_copy s.data_free)
        else (s.item.getD []).foldl copyStepKeep
          (some (hmap_create_full V s.size s.data_size s.load_factor s.key_hash
            s.data_copy s.data_free))) := rfl
    rw [e1, e2]
    by_cases hsz : s.size = 0
    · rw [if_pos hsz, if_pos hsz]
    · rw [if_neg hsz, if_neg hsz]
      exact copy_fold_keep_eq _ _ hwc
        (fun k hk hcon => absurd (hcon : k ∈ ([] : List String)) (List.not_mem_nil k))
        hnd

theorem C4_copy_spec_witness :
    (∀ c, hmap_copy w12 = some c →
      c.load_factor = w12.load_factor ∧ c.key_hash = w12.key_hash ∧
      c.data_copy = w12.data_copy ∧ c.data_free = w12.data_free ∧
      c.data_size = w12.data_size ∧
      grownCapacity w12.size w12.load_factor ≤ c.capacity) ∧
    ((liveKeys (w12.item.getD [])).Nodup → hmap_copy w12 = hmap_copyKeepTrue w12) :=
  C4_copy_spec w12 (by exact lf34_pos) (by exact lf34_lt_one)

/-- C4 counterexample: on the duplicate-key state `w4` (two live slots
for `"b"`, inserted with values 3 and 2 in slot order), the code's copy
(`keep = 0`) overwrites and ends with `find "b" = 2`, while the spec's
`keep_existing = true` copy keeps the first re-inserted slot,
`find "b" = 3` — the two disagree. -/
theorem C4_counterexample :
    hmap_copy w4 = some w4c ∧ hmap_copyKeepTrue w4 = some w4k ∧
    hmap_find w4c "b" = some 2 ∧ hmap_find w4k "b" = some 3 :=
  ⟨by exact rfl, by exact rfl, by decide, by decide⟩

/-- C5 (amended): `hmap_clear` always ends with `size = 0` and the slot
array pointer cleared; but when the array was allocated it zeroes the
*whole* struct, capacity included — capacity is not "unchanged as
configured metadata", and so is monotone only across insert/remove runs,
not across `clear`.  (When the array was never allocated, clear is the
identity.) -/
theorem C5_clear_effect {V : Type} (s : Hmap V) (hw : WF s) :
    (hmap_clear s).size = 0 ∧ (hmap_clear s).item = none ∧
    (s.item.isSome → hmap_clear s = hmap_zero V ∧ (hmap_clear s).capacity = 0) ∧
    (s.item = none → hmap_clear s = s) ∧
    (∀ ops t, hmap_run s ops = some t → s.capacity ≤ t.capacity) := by
  have hmono : ∀ (ops : List (Op V)) (t : Hmap V), hmap_run s ops = some t →
      s.capacity ≤ t.capacity := fun ops t hr => (WF_run ops s t hw hr).2.1
  by_cases hi : s.item.isNone
  · have hin : s.item = none := Option.isNone_iff_eq_none.mp hi
    have he : hmap_clear s = s := by
      unfold hmap_clear
      rw [if_pos hi]
    rw [he]
    refine ⟨hw.size_none hin, hin, ?_, fun _ => rfl, hmono⟩
    intro hcon
    rw [hin] at hcon
    simp at hcon
  · have he : hmap_clear s = hmap_zero V := by
      unfold hmap_clear
      rw [if_neg hi]
    rw [he]
    refine ⟨rfl, rfl, fun _ => ⟨rfl, rfl⟩, ?_, hmono⟩
    intro hin
    rw [hin] at hi
    simp at hi

theorem C5_clear_effect_witness :
    (hmap_clear w1p.1).size = 0 ∧ (hmap_clear w1p.1).item = none ∧
    (w1p.1.item.isSome → hmap_clear w1p.1 = hmap_zero Nat ∧
      (hmap_clear w1p.1).capacity = 0) ∧
    (w1p.1.item = none → hmap_clear w1p.1 = w1p.1) ∧
    (∀ ops t, hmap_run w1p.1 ops = some t → w1p.1.capacity ≤ t.capacity) :=
  C5_clear_effect w1p.1
    (WF_insert (WF_create 2 0 lf34_pos lf34_lt_one strhash_fnv1a (some id) true)
      (by exact rfl : hmap_insert w0 "a" (some 1) false = some (w1p.1, w1p.2))).1

/-- C5 counterexample: clearing a container whose slot array is allocated
zeroes `capacity` as well — here a container of capacity 3 ends with
capacity 0, so capacity shrinks under `clear`. -/
theorem C5_counterexample :
    w1p.1.capacity = 3 ∧ (hmap_clear w1p.1).capacity = 0 :=
  ⟨by decide, by decide⟩

/-- C6 (amended): in an insert-only container, a *fresh* insert stores
the copy-callback image of the caller's value (a container-owned deep
copy); but when an equal entry is found and `keep` is false, the found
branch stores the caller's value itself — `item->data = data` — without
consulting the copy callback.  The original "both cases deep-copy" claim
is refuted by `C6_counterexample`. -/
theorem C6_value_ownership {V : Type} {s s' : Hmap V} {key : String} {data : Option V}
    {keep : Bool} {r : Option V} (hw : WFI s)
    (h : hmap_insert s key data keep = some (s', r)) :
    (¬ keyLive s key → HasSlot s' key (applyCopyD s.data_copy data) ∧ r = none) ∧
    (keyLive s key → r = hmap_find s key ∧
      hmap_find s' key = (if keep then r else data)) := by
  constructor
  · intro habs
    obtain ⟨h1, h2, _, _⟩ := insert_new_spec hw h habs
    exact ⟨h1, h2⟩
  · intro hlive
    obtain ⟨_, h2, h3⟩ := insert_dup_spec hw h hlive
    exact ⟨h2, h3⟩

theorem C6_value_ownership_witness :
    (¬ keyLive w6p.1 "a" →
      HasSlot w6q.1 "a" (applyCopyD w6p.1.data_copy (some 10)) ∧ w6q.2 = none) ∧
    (keyLive w6p.1 "a" → w6q.2 = hmap_find w6p.1 "a" ∧
      hmap_find w6q.1 "a" = some 10) :=
  C6_value_ownership
    (WFI_insert (WFI_create 2 0 lf34_pos lf34_lt_one strhash_fnv1a (some Nat.succ) true)
      (by exact rfl : hmap_insert s6 "a" (some 1) false = some (w6p.1, w6p.2)))
    (by exact rfl : hmap_insert w6p.1 "a" (some 10) false = some (w6q.1, w6q.2))

/-- C6 counterexample: with the copy callback `Nat.succ`, the fresh
insert of `("a", 1)` stores the deep copy 2, but overwriting `"a"` with
the caller's value 10 stores 10 itself, not the copy 11 the claim
requires. -/
theorem C6_counterexample :
    hmap_find w6p.1 "a" = some 2 ∧
    hmap_insert w6p.1 "a" (some 10) false = some (w6q.1, w6q.2) ∧
    hmap_find w6q.1 "a" = some 10 ∧
    applyCopyD w6p.1.data_copy (some 10) = some 11 ∧
    hmap_find w6q.1 "a" ≠ applyCopyD w6p.1.data_copy (some 10) :=
  ⟨by decide, by exact rfl, by decide, by decide, by decide⟩

end Cds
